import Mathlib

set_option maxHeartbeats 1000000

/-!
Verification of the textual front end of the HVM surface language
(`src/language.rs`): the term/rule/file data model, the printer with its
list/string re-sugaring, and the parser grammar built over the small
backtracking combinator library.  The combinator library itself
(`crate::parser`) is not part of the sources; every definition that embeds
one of its combinators is modelled from the specification (section 4.1)
and carries a doc comment saying so.
-/

-- ==========================================================================
-- Data model (language.rs, `enum Oper`, `enum Term`, `Rule`, `File`)
-- ==========================================================================

/-- Embedding of `enum Oper`: the closed enumeration of the 16 binary
operators. -/
inductive Oper where
  | Add | Sub | Mul | Div | Mod | And | Or | Xor
  | Shl | Shr | Lte | Ltn | Eql | Gte | Gtn | Neq
deriving Repr, DecidableEq

/-- Embedding of `enum Term`.  The source stores numerals as `u64`; they are
modelled as `Nat`, with the bound `2^64` made explicit wherever the source
relies on the machine width. -/
inductive Term where
  | Var (name : String)
  | Dup (nam0 nam1 : String) (expr body : Term)
  | Let (name : String) (expr body : Term)
  | Lam (name : String) (body : Term)
  | App (func argm : Term)
  | Ctr (name : String) (args : List Term)
  | Num (numb : Nat)
  | Op2 (oper : Oper) (val0 val1 : Term)
deriving Repr

/-- Embedding of `struct Rule`: one rewrite definition `lhs = rhs`. -/
structure Rule where
  lhs : Term
  rhs : Term
deriving Repr

/-- Embedding of `struct File`: an ordered sequence of rules. -/
structure File where
  rules : List Rule
deriving Repr

-- ==========================================================================
-- Character classes
-- ==========================================================================

/-- Whitespace, the insignificant characters skipped between tokens
(space, newline, tab, carriage return). -/
def isSpaceChar (c : Char) : Bool :=
  c.toNat = 32 || c.toNat = 10 || c.toNat = 9 || c.toNat = 13

/-- Upper-case ASCII letter, the range `('A'..='Z')` used by the constructor
lookahead in `parse_ctr`. -/
def isUpperChar (c : Char) : Bool := 65 ≤ c.toNat && c.toNat ≤ 90

/-- Lower-case ASCII letter, part of the variable lookahead in `parse_var`. -/
def isLowerChar (c : Char) : Bool := 97 ≤ c.toNat && c.toNat ≤ 122

/-- Decimal digit, the range `('0'..='9')` used by the numeral lookahead in
`parse_u60`. -/
def isDigitChar (c : Char) : Bool := 48 ≤ c.toNat && c.toNat ≤ 57

/-- Modelled from the spec: identifier characters are letters, digits,
underscore and dot (section 4.1, read-identifier). -/
def isNameChar (c : Char) : Bool :=
  isUpperChar c || isLowerChar c || isDigitChar c || c.toNat = 95 || c.toNat = 46

-- ==========================================================================
-- Parser state, failures, primitive combinators
-- (crate::parser; absent from src/, modelled from spec section 4.1)
-- ==========================================================================

/-- Modelled from the spec: the parser state is an immutable view of the
source plus a current offset.  It is represented here as the remaining
character list together with the absolute offset already consumed; the two
views are equivalent and this one makes consumption structural. -/
structure PState where
  rest : List Char
  off  : Nat
deriving Repr, DecidableEq

/-- Failure outcomes of a parse.  `expected` carries the label and offset of
the single "expected X" error kind of the spec (section 7); `panicked`
models a Rust panic (such as `unwrap` on an `Err`); `overflow` models
exhaustion of the call stack on pathologically deep input, the resource
limit the spec acknowledges in section 9. -/
inductive PFail where
  | expected (exp : String) (off : Nat)
  | panicked (msg : String)
  | overflow
deriving Repr, DecidableEq

/-- Shape of every parsing function: a state in, and either a failure or a
new state with a value. -/
abbrev Parser (α : Type) := PState → Except PFail (PState × α)

/-- Modelled from the spec: skipping of insignificant characters before a
token (whitespace; the spec leaves the set open beyond whitespace and no
claim exercises comment syntax). -/
def skipAux : List Char → Nat → PState
  | [], n => ⟨[], n⟩
  | c :: cs, n => if isSpaceChar c then skipAux cs (n + 1) else ⟨c :: cs, n⟩

/-- Modelled from the spec: skip insignificant characters, see `skipAux`. -/
def skip (s : PState) : PState := skipAux s.rest s.off

/-- Helper: strip an expected literal from the front of the input, or report
that it is not there. -/
def stripPre : List Char → List Char → Option (List Char)
  | [], input => some input
  | _ :: _, [] => none
  | p :: ps, c :: cs => if p = c then stripPre ps cs else none

/-- Modelled from the spec: `match-literal` — skip insignificant characters,
then test whether the literal occurs at the new offset; on success the
state is advanced past it, on failure the original state is returned with
`false` (never a partial consumption). -/
def text (pat : String) (s : PState) : PState × Bool :=
  let s1 := skip s
  match stripPre pat.data s1.rest with
  | some rest => (⟨rest, s1.off + pat.data.length⟩, true)
  | none => (s, false)

/-- Modelled from the spec: failure value carrying the expected construct
and the offset at which the expectation was violated. -/
def perr (exp : String) (s : PState) : Except PFail (PState × α) :=
  .error (.expected exp s.off)

/-- Modelled from the spec: `require-literal` — like `text` but failure
raises an error naming the literal. -/
def consume (pat : String) (s : PState) : Except PFail (PState × String) :=
  let (s1, ok) := text pat s
  if ok then .ok (s1, pat) else perr pat s1

/-- Helper: split the input into its maximal identifier run and the rest. -/
def nameRun : List Char → List Char × List Char
  | [] => ([], [])
  | c :: cs =>
    if isNameChar c then
      let (r, rest) := nameRun cs
      (c :: r, rest)
    else ([], c :: cs)

/-- Modelled from the spec: lenient identifier reader — consumes the maximal
run of identifier characters (possibly empty) after skipping whitespace. -/
def pname (s : PState) : PState × String :=
  let s1 := skip s
  let (run, rest) := nameRun s1.rest
  (⟨rest, s1.off + run.length⟩, ⟨run⟩)

/-- Modelled from the spec: strict identifier reader — requires at least one
identifier character and fails otherwise. -/
def name1 (s : PState) : Except PFail (PState × String) :=
  let (s1, n) := pname s
  if n.data.isEmpty then perr "name" s1 else .ok (s1, n)

/-- Modelled from the spec: peek at the next significant character, giving
the neutral value (code 0) at end of input.  The returned state (used only
by lookahead predicates, whose state is discarded) is advanced past it. -/
def get_char (s : PState) : PState × Char :=
  let s1 := skip s
  match s1.rest with
  | [] => (s1, Char.ofNat 0)
  | c :: cs => (⟨cs, s1.off + 1⟩, c)

/-- Modelled from the spec: raw peek at the character at the current offset
(no whitespace skip), giving the neutral value (code 0) at end of input. -/
def phead (s : PState) : Char :=
  match s.rest with
  | [] => Char.ofNat 0
  | c :: _ => c

/-- Modelled from the spec: advance — the state with offset + 1; the
identity at end of input. -/
def ptail (s : PState) : PState :=
  match s.rest with
  | [] => s
  | _ :: cs => ⟨cs, s.off + 1⟩

/-- Modelled from the spec: `guard` — evaluate the lookahead predicate on
the whitespace-normalised state without commitment; run the body from that
state when it accepts, return `none` with the pre-predicate state when it
declines.  Errors raised inside an accepted body are not suppressed. -/
def pguard (pred : Parser Bool) (body : Parser α) (s : PState) :
    Except PFail (PState × Option α) :=
  let s1 := skip s
  match pred s1 with
  | .error e => .error e
  | .ok (_, true) =>
    match body s1 with
    | .error e => .error e
    | .ok (s2, v) => .ok (s2, some v)
  | .ok (_, false) => .ok (s, none)

/-- Modelled from the spec: ordered choice — try each alternative in order
from the same state, take the first non-absent result, and raise an error
tagged with the label when every alternative declines. -/
def grammar (label : String) : List (Parser (Option α)) → Parser α
  | [], s => perr label s
  | p :: ps, s =>
    match p s with
    | .error e => .error e
    | .ok (s1, some v) => .ok (s1, v)
    | .ok (_, none) => grammar label ps s

/-- Modelled from the spec: ordered disjunction of boolean matchers — the
first that matches wins; when none matches the original state is kept. -/
def por : List (PState → PState × Bool) → PState → PState × Bool
  | [], s => (s, false)
  | p :: ps, s =>
    let (s1, ok) := p s
    if ok then (s1, true) else por ps s

/-- Modelled from the spec: repeat-until loop body.  The explicit iteration
bound models the fact that the source loop can only run while input
remains; exhausting it is the `overflow` outcome. -/
def puntilAux (delim : Parser Bool) (elem : Parser α) :
    Nat → PState → Except PFail (PState × List α)
  | 0, _ => .error .overflow
  | k + 1, s =>
    match delim s with
    | .error e => .error e
    | .ok (s1, true) => .ok (s1, [])
    | .ok (s1, false) =>
      match elem s1 with
      | .error e => .error e
      | .ok (s2, x) =>
        match puntilAux delim elem k s2 with
        | .error e => .error e
        | .ok (s3, xs) => .ok (s3, x :: xs)

/-- Modelled from the spec: repeat-until — repeatedly apply the element
parser, checking the terminator before each iteration and consuming it once
it matches. -/
def puntil (delim : Parser Bool) (elem : Parser α) (s : PState) :
    Except PFail (PState × List α) :=
  puntilAux delim elem (s.rest.length + 1) s

/-- Modelled from the spec: loop body of the delimited list combinator:
check the closer, parse an element, consume an optional separator. -/
def plistAux (close : Parser Bool) (elem : Parser α) (sep : Parser Bool) :
    Nat → PState → Except PFail (PState × List α)
  | 0, _ => .error .overflow
  | k + 1, s =>
    match close s with
    | .error e => .error e
    | .ok (s1, true) => .ok (s1, [])
    | .ok (s1, false) =>
      match elem s1 with
      | .error e => .error e
      | .ok (s2, x) =>
        match sep s2 with
        | .error e => .error e
        | .ok (s3, _) =>
          match plistAux close elem sep k s3 with
          | .error e => .error e
          | .ok (s4, xs) => .ok (s4, x :: xs)

/-- Modelled from the spec: the delimited list combinator `list(open, sep,
close, elem, make)` — consume the opener, loop elements until the closer,
and build the result from the element sequence. -/
def plist (openP : Parser Bool) (sep close : Parser Bool) (elem : Parser α)
    (mk : List α → β) (s : PState) : Except PFail (PState × β) :=
  match openP s with
  | .error e => .error e
  | .ok (s1, _) =>
    match plistAux close elem sep (s1.rest.length + 1) s1 with
    | .error e => .error e
    | .ok (s2, xs) => .ok (s2, mk xs)

/-- Modelled from the spec: optional construct — run the parser, turning a
failure into an absent result with no input consumed. -/
def pmaybe (p : Parser α) (s : PState) : Except PFail (PState × Option α) :=
  match p s with
  | .ok (s1, v) => .ok (s1, some v)
  | .error _ => .ok (s, none)

/-- Modelled from the spec: end-of-input check, performed after skipping
insignificant characters. -/
def pdone (s : PState) : Except PFail (PState × Bool) :=
  let s1 := skip s
  .ok (s1, s1.rest.isEmpty)

/-- Modelled from the spec: run a parser on a whole source string from
offset zero, keeping the value and discarding the final state. -/
def pread (p : Parser α) (code : String) : Except PFail α :=
  match p ⟨code.data, 0⟩ with
  | .ok (_, v) => .ok v
  | .error e => .error e

-- ==========================================================================
-- Printer (language.rs, `impl fmt::Display for Oper/Term/Rule/File`)
-- ==========================================================================

/-- Decimal digit character for a value below ten. -/
def digitChar (d : Nat) : Char := Char.ofNat (48 + d)

/-- Decimal rendering loop: most significant digit first, as Rust's `{}`
for `u64` prints. -/
def natReprAux (n : Nat) (acc : List Char) : List Char :=
  if n < 10 then digitChar n :: acc
  else natReprAux (n / 10) (digitChar (n % 10) :: acc)
termination_by n
decreasing_by exact Nat.div_lt_self (by omega) (by omega)

/-- Decimal rendering of a numeral, embedding `write!(f, "{}", numb)`. -/
def natRepr (n : Nat) : List Char := natReprAux n []

/-- Embedding of `impl fmt::Display for Oper`: the canonical symbol of each
operator. -/
def operStr : Oper → List Char
  | .Add => ['+']
  | .Sub => ['-']
  | .Mul => ['*']
  | .Div => ['/']
  | .Mod => ['%']
  | .And => ['&']
  | .Or => ['|']
  | .Xor => ['^']
  | .Shl => ['<', '<']
  | .Shr => ['>', '>']
  | .Lte => ['<', '=']
  | .Ltn => ['<']
  | .Eql => ['=', '=']
  | .Gte => ['>', '=']
  | .Gtn => ['>']
  | .Neq => ['!', '=']

/-- Valid Unicode scalar value test, embedding what `std::char::from_u32`
accepts: below the surrogate range or between it and `0x110000`. -/
def isScalar (n : Nat) : Bool := n < 55296 || (57343 < n && n < 1114112)

mutual

/-- Size measure on terms used for termination and strong induction; every
term has positive size and proper subterms are strictly smaller. -/
def tsize : Term → Nat
  | .Var _ => 1
  | .Dup _ _ e k => 1 + tsize e + tsize k
  | .Let _ e k => 1 + tsize e + tsize k
  | .Lam _ k => 1 + tsize k
  | .App f a => 1 + tsize f + tsize a
  | .Ctr _ args => 1 + lsize args
  | .Num _ => 1
  | .Op2 _ a b => 1 + tsize a + tsize b
termination_by t => sizeOf t
decreasing_by all_goals (simp_wf <;> omega)

/-- Size measure on argument lists, companion of `tsize`. -/
def lsize : List Term → Nat
  | [] => 0
  | t :: ts => 1 + tsize t + lsize ts
termination_by ts => sizeOf ts
decreasing_by all_goals (simp_wf <;> omega)

end

/-- Embedding of the printer's `str_sugar` recogniser body (`go`): on a
two-argument `StrCons` whose head is a literal, push the character of the
numeral truncated to 32 bits (aborting if it is no valid scalar value) and
recurse on the tail; note that a two-argument `StrCons` whose head is NOT a
numeral returns success immediately, exactly as the source's early
`return Some(())` does.  `StrNil` with no arguments ends the string; any
other shape aborts. -/
def strSugarGo : Term → Option (List Char)
  | .Ctr n [a0, a1] =>
    if n = "StrCons" then
      match a0 with
      | .Num numb =>
        if isScalar (numb % 4294967296) then
          match strSugarGo a1 with
          | some cs => some (Char.ofNat (numb % 4294967296) :: cs)
          | none => none
        else none
      | _ => some []
    else none
  | .Ctr n [] => if n = "StrNil" then some [] else none
  | _ => none

mutual

/-- Embedding of `impl fmt::Display for Term`.  Constructor nodes first try
the string sugar, then the list sugar, and fall back to the plain
parenthesised rendering; application spines are flattened into one
parenthesised sequence. -/
def printT : Term → List Char
  | .Var n => n.data
  | .Dup a b e k =>
    'd' :: 'u' :: 'p' :: ' ' :: a.data ++ ' ' :: b.data ++ ' ' :: '=' :: ' ' ::
      printT e ++ ';' :: ' ' :: printT k
  | .Let n e k =>
    'l' :: 'e' :: 't' :: ' ' :: n.data ++ ' ' :: '=' :: ' ' ::
      printT e ++ ';' :: ' ' :: printT k
  | .Lam n k => 'λ' :: n.data ++ ' ' :: printT k
  | .App f a => '(' :: appInner f a ++ [')']
  | .Ctr n args =>
    match strSugarGo (.Ctr n args) with
    | some cs => '"' :: cs ++ ['"']
    | none =>
      match lstSugarGo (.Ctr n args) true with
      | some cs => '[' :: cs ++ [']']
      | none => '(' :: n.data ++ printArgs args ++ [')']
  | .Num v => natRepr v
  | .Op2 o a b => '(' :: operStr o ++ ' ' :: printT a ++ ' ' :: printT b ++ [')']
termination_by t => (tsize t, 1)
decreasing_by all_goals (simp_wf; simp [tsize, lsize, Prod.lex_def] <;> omega)

/-- Flattened application spine: the source walks the left-nested `App`
nodes collecting arguments and prints function and arguments space
separated within one pair of parentheses. -/
def appInner : Term → Term → List Char
  | .App f a, b => appInner f a ++ ' ' :: printT b
  | f, b => printT f ++ ' ' :: printT b
termination_by f a => (tsize f + tsize a + 1, 0)
decreasing_by all_goals (simp_wf; simp [tsize, lsize, Prod.lex_def] <;> omega)

/-- Space-prefixed rendering of each constructor argument, embedding
`args.iter().map(|x| format!(" {}", x)).collect::<String>()`. -/
def printArgs : List Term → List Char
  | [] => []
  | t :: ts => ' ' :: printT t ++ printArgs ts
termination_by ts => (lsize ts, 0)
decreasing_by all_goals (simp_wf; simp [tsize, lsize, Prod.lex_def] <;> omega)

/-- Embedding of the printer's `lst_sugar` recogniser body (`go`): on a
two-argument `Cons` push a separator (except before the first element) and
the printed head, then recurse on the tail; `Nil` with no arguments ends
the list; any other shape aborts the whole attempt. -/
def lstSugarGo : Term → Bool → Option (List Char)
  | .Ctr n [a0, a1], fst =>
    if n = "Cons" then
      match lstSugarGo a1 false with
      | some cs => some ((if fst then [] else [',', ' ']) ++ printT a0 ++ cs)
      | none => none
    else none
  | .Ctr n [], _ => if n = "Nil" then some [] else none
  | _, _ => none
termination_by t _ => (tsize t, 0)
decreasing_by all_goals (simp_wf; simp [tsize, lsize, Prod.lex_def] <;> omega)

end

/-- String view of the printed form of a term. -/
def printTerm (t : Term) : String := ⟨printT t⟩

-- ==========================================================================
-- Grammar (language.rs, parse_* functions)
-- ==========================================================================

/-- Embedding of `parse_let`: guarded on the text `"let "`; then the
keyword, a strict name, `=`, the bound expression, a soft `;`, and the
body. -/
def parse_let (pt : Parser Term) : Parser (Option Term) :=
  pguard (fun s => .ok (text "let " s)) (fun s =>
    match consume "let " s with
    | .error e => .error e
    | .ok (s, _) =>
      match name1 s with
      | .error e => .error e
      | .ok (s, nam) =>
        match consume "=" s with
        | .error e => .error e
        | .ok (s, _) =>
          match pt s with
          | .error e => .error e
          | .ok (s, expr) =>
            let (s, _) := text ";" s
            match pt s with
            | .error e => .error e
            | .ok (s, body) => .ok (s, Term.Let nam expr body))

/-- Embedding of `parse_dup`: guarded on the text `"dup "`; then the
keyword, two strict names, `=`, the shared expression, a soft `;`, and the
body. -/
def parse_dup (pt : Parser Term) : Parser (Option Term) :=
  pguard (fun s => .ok (text "dup " s)) (fun s =>
    match consume "dup " s with
    | .error e => .error e
    | .ok (s, _) =>
      match name1 s with
      | .error e => .error e
      | .ok (s, nam0) =>
        match name1 s with
        | .error e => .error e
        | .ok (s, nam1) =>
          match consume "=" s with
          | .error e => .error e
          | .ok (s, _) =>
            match pt s with
            | .error e => .error e
            | .ok (s, expr) =>
              let (s, _) := text ";" s
              match pt s with
              | .error e => .error e
              | .ok (s, body) => .ok (s, Term.Dup nam0 nam1 expr body))

/-- Embedding of `parse_lam`: guarded on `λ` or `@`; the binder is read
with the lenient reader, then the body follows. -/
def parse_lam (pt : Parser Term) : Parser (Option Term) :=
  pguard (fun s => .ok (por [text "λ", text "@"] s)) (fun s =>
    let (s, _) := por [text "λ", text "@"] s
    let (s, nam) := pname s
    match pt s with
    | .error e => .error e
    | .ok (s, body) => .ok (s, Term.Lam nam body))

/-- Embedding of `parse_app`: guarded on `(`; a parenthesised sequence of
terms folded left into binary applications, the empty sequence giving the
literal zero. -/
def parse_app (pt : Parser Term) : Parser (Option Term) :=
  pguard (fun s => .ok (text "(" s))
    (plist (fun s => .ok (text "(" s)) (fun s => .ok (text "" s))
      (fun s => .ok (text ")" s)) pt
      (fun args =>
        match args with
        | [] => Term.Num 0
        | f :: rest => rest.foldl Term.App f))

/-- Embedding of `parse_ctr`: guarded on a `(` (soft) followed by an
upper-case letter; then a strict name and, when the parenthesis was there,
arguments until `)`. -/
def parse_ctr (pt : Parser Term) : Parser (Option Term) :=
  pguard
    (fun s =>
      let (s, _) := text "(" s
      let (s, c) := get_char s
      .ok (s, isUpperChar c))
    (fun s =>
      let (s, opened) := text "(" s
      match name1 s with
      | .error e => .error e
      | .ok (s, nam) =>
        if opened then
          match puntil (fun x => .ok (text ")" x)) pt s with
          | .error e => .error e
          | .ok (s, args) => .ok (s, Term.Ctr nam args)
        else .ok (s, Term.Ctr nam []))

/-- Rust's `str::parse::<u64>` restricted to the identifier runs the
numeral parser feeds it: it succeeds exactly on a nonempty all-digit run
whose value fits in 64 bits. -/
def parseU64 (cs : List Char) : Option Nat :=
  if cs.isEmpty then none
  else if cs.all isDigitChar then
    let v := cs.foldl (fun a c => 10 * a + (c.toNat - 48)) 0
    if v < 18446744073709551616 then some v else none
  else none

/-- Embedding of `parse_u60`: guarded on a digit; reads the maximal
identifier run and converts it with `parse::<u64>().unwrap()` — the
`unwrap` panics when the run is not a valid `u64` numeral, which the
`panicked` outcome records. -/
def parse_u60 : Parser (Option Term) :=
  pguard
    (fun s =>
      let (s, c) := get_char s
      .ok (s, isDigitChar c))
    (fun s =>
      match name1 s with
      | .error e => .error e
      | .ok (s, numb) =>
        if numb.data.isEmpty then .ok (s, Term.Num 0)
        else
          match parseU64 numb.data with
          | some v => .ok (s, Term.Num v)
          | none => .error (.panicked "u64 parse"))

/-- Operator symbol characters, embedding `is_op_char`. -/
def is_op_char (c : Char) : Bool :=
  c = '+' || c = '-' || c = '*' || c = '/' || c = '%' || c = '&' ||
  c = '|' || c = '^' || c = '<' || c = '>' || c = '=' || c = '!'

/-- One alternative of the operator grammar: a soft literal that yields its
operator when it matches. -/
def opAlt (symbol : String) (o : Oper) : Parser (Option Oper) := fun s =>
  let (s1, ok) := text symbol s
  .ok (s1, if ok then some o else none)

/-- Embedding of `parse_oper`: ordered choice over the 16 operator symbols
in source order (two-character symbols before their one-character
prefixes). -/
def parse_oper : Parser Oper :=
  grammar "Oper"
    [opAlt "+" .Add, opAlt "-" .Sub, opAlt "*" .Mul, opAlt "/" .Div,
     opAlt "%" .Mod, opAlt "&" .And, opAlt "|" .Or, opAlt "^" .Xor,
     opAlt "<<" .Shl, opAlt ">>" .Shr, opAlt "<=" .Lte, opAlt "<" .Ltn,
     opAlt "==" .Eql, opAlt ">=" .Gte, opAlt ">" .Gtn, opAlt "!=" .Neq]

/-- Embedding of `parse_op2`: guarded on `(` followed by an operator
character; then the operator, two operands, and a soft `)`. -/
def parse_op2 (pt : Parser Term) : Parser (Option Term) :=
  pguard
    (fun s =>
      let (s, opened) := text "(" s
      let (s, c) := get_char s
      .ok (s, opened && is_op_char c))
    (fun s =>
      let (s, _) := text "(" s
      match parse_oper s with
      | .error e => .error e
      | .ok (s, oper) =>
        match pt s with
        | .error e => .error e
        | .ok (s, v0) =>
          match pt s with
          | .error e => .error e
          | .ok (s, v1) =>
            let (s, _) := text ")" s
            .ok (s, Term.Op2 oper v0 v1))

/-- Embedding of `parse_var`: guarded on a lower-case letter, underscore or
dollar; the name is read with the lenient reader. -/
def parse_var : Parser (Option Term) :=
  pguard
    (fun s =>
      let (s, c) := get_char s
      .ok (s, isLowerChar c || c = '_' || c = '$'))
    (fun s =>
      let (s, nam) := pname s
      .ok (s, Term.Var nam))

/-- Embedding of `parse_chr_sugar`: guarded on a single quote; the quote, a
raw character (the spec-modelled peek yields the neutral character at end
of input), and a soft closing quote, producing the code point as a
numeral. -/
def parse_chr_sugar : Parser (Option Term) :=
  pguard
    (fun s =>
      let (s, c) := get_char s
      .ok (s, c = Char.ofNat 39))
    (fun s =>
      let (s, _) := text "'" s
      let c := phead s
      let s := ptail s
      let (s, _) := text "'" s
      .ok (s, Term.Num c.toNat))

/-- Character collection loop of `parse_str_sugar`: consume characters
until the delimiter or an embedded NUL is found (consuming it) or the
input ends (the spec-modelled peek yields the neutral character there, so
the loop stops; advancing at end of input is the identity). -/
def strLoop : List Char → Nat → Char → List Char × PState
  | [], off, _ => ([], ⟨[], off⟩)
  | c :: cs, off, delim =>
    if c = delim || c = Char.ofNat 0 then ([], ⟨cs, off + 1⟩)
    else
      let (acc, s) := strLoop cs (off + 1) delim
      (c :: acc, s)

/-- Embedding of `parse_str_sugar`: guarded on a double quote or backtick;
the raw head character is the delimiter, then characters are collected up
to the matching delimiter or end of input and folded from the right into a
`StrCons`/`StrNil` chain. -/
def parse_str_sugar : Parser (Option Term) :=
  pguard
    (fun s =>
      let (s, c) := get_char s
      .ok (s, c = '"' || c = Char.ofNat 96))
    (fun s =>
      let delim := phead s
      let s := ptail s
      let (chars, s) := strLoop s.rest s.off delim
      .ok (s, chars.foldr (fun h t => Term.Ctr "StrCons" [Term.Num h.toNat, t])
        (Term.Ctr "StrNil" [])))

/-- Embedding of `parse_lst_sugar`: guarded on `[`; elements with optional
comma separators until `]`, folded from the right into a `Cons`/`Nil`
chain. -/
def parse_lst_sugar (pt : Parser Term) : Parser (Option Term) :=
  pguard
    (fun s =>
      let (s, c) := get_char s
      .ok (s, c = '['))
    (fun s =>
      let (s, _) := text "[" s
      match puntil (fun x => .ok (text "]" x))
        (fun x =>
          match pt x with
          | .error e => .error e
          | .ok (x1, t) =>
            match pmaybe (fun y => .ok (text "," y)) x1 with
            | .error e => .error e
            | .ok (x2, _) => .ok (x2, t)) s with
      | .error e => .error e
      | .ok (s, elems) =>
        .ok (s, elems.foldr (fun h t => Term.Ctr "Cons" [h, t])
          (Term.Ctr "Nil" [])))

/-- Alternative list of the term grammar, in source order. -/
def termAlts (pt : Parser Term) : List (Parser (Option Term)) :=
  [parse_let pt, parse_dup pt, parse_lam pt, parse_ctr pt, parse_op2 pt,
   parse_app pt, parse_u60, parse_chr_sugar, parse_str_sugar,
   parse_lst_sugar pt, parse_var, fun s => .ok (s, none)]

/-- Embedding of `parse_term`: ordered choice over the term alternatives.
The fuel parameter models the recursion capacity of the call stack (spec
section 9); each nesting level consumes one unit. -/
def parse_term : Nat → Parser Term
  | 0, _ => .error .overflow
  | fuel + 1, s => grammar "Term" (termAlts (parse_term fuel)) s

/-- Embedding of `parse_rule`: guarded on the empty text (which always
matches); a term, a required `=`, and a term. -/
def parse_rule (pt : Parser Term) : Parser (Option Rule) :=
  pguard (fun s => .ok (text "" s)) (fun s =>
    match pt s with
    | .error e => .error e
    | .ok (s, lhs) =>
      match consume "=" s with
      | .error e => .error e
      | .ok (s, _) =>
        match pt s with
        | .error e => .error e
        | .ok (s, rhs) => .ok (s, Rule.mk lhs rhs))

/-- Loop of `parse_file`: check end of input; parse one rule from the
skipped state; a rule parser that declines raises "expected definition" at
the loop's current (unskipped) offset.  The iteration bound models the
fact that each accepted rule consumes input. -/
def parse_fileAux (pt : Parser Term) :
    Nat → List Rule → PState → Except PFail (PState × File)
  | 0, _, _ => .error .overflow
  | k + 1, acc, s =>
    match pdone s with
    | .error e => .error e
    | .ok (s1, isDone) =>
      if isDone then .ok (s, File.mk acc)
      else
        match parse_rule pt s1 with
        | .error e => .error e
        | .ok (s2, some r) => parse_fileAux pt k (acc ++ [r]) s2
        | .ok (_, none) => perr "definition" s

/-- Embedding of `parse_file`: the rule loop from the initial state. -/
def parse_file (pt : Parser Term) : Parser File := fun s =>
  parse_fileAux pt (s.rest.length + 1) [] s

/-- Embedding of `read_term`.  The fuel (recursion capacity) is two more
than the input length, which the round-trip development shows never binds
for printed terms: nesting depth is bounded by the printed length. -/
def read_term (code : String) : Except PFail Term :=
  pread (parse_term (code.length + 2)) code

/-- Embedding of `read_rule`. -/
def read_rule (code : String) : Except PFail (Option Rule) :=
  pread (parse_rule (parse_term (code.length + 2))) code

/-- Embedding of `read_file`. -/
def read_file (code : String) : Except PFail File :=
  pread (parse_file (parse_term (code.length + 2))) code

-- ==========================================================================
-- Well-formedness of hand-built terms: names as the grammar can reproduce
-- them, numerals within the machine width
-- ==========================================================================

/-- Name that the strict identifier reader reproduces: nonempty, made of
identifier characters. -/
def validName (n : String) : Bool := !n.data.isEmpty && n.data.all isNameChar

/-- Variable name as `parse_var` reproduces it: a valid name starting with
a lower-case letter or underscore, and not a binder keyword (a keyword
followed by a space would be captured by `parse_let`/`parse_dup`). -/
def validVarName (n : String) : Bool :=
  validName n &&
  (match n.data with
   | [] => false
   | c :: _ => isLowerChar c || c.toNat = 95) &&
  n != "let" && n != "dup"

/-- Constructor name as `parse_ctr` reproduces it: a valid name starting
with an upper-case letter.  The four sugar names are excluded, which is
the "non-sugar shape" restriction of the round-trip claim. -/
def validCtrName (n : String) : Bool :=
  validName n &&
  (match n.data with
   | [] => false
   | c :: _ => isUpperChar c) &&
  n != "Cons" && n != "Nil" && n != "StrCons" && n != "StrNil"

mutual

/-- Canonical terms of non-sugar shape: well-formed names everywhere,
constructor names outside the sugar set, numerals below `2^64`. -/
def wfT : Term → Bool
  | .Var n => validVarName n
  | .Dup a b e k => validName a && validName b && wfT e && wfT k
  | .Let n e k => validName n && wfT e && wfT k
  | .Lam n k => validName n && wfT k
  | .App f a => wfT f && wfT a
  | .Ctr n args => validCtrName n && wfL args
  | .Num v => decide (v < 18446744073709551616)
  | .Op2 _ a b => wfT a && wfT b
termination_by t => sizeOf t
decreasing_by all_goals (simp_wf <;> omega)

/-- Companion of `wfT` on argument lists. -/
def wfL : List Term → Bool
  | [] => true
  | t :: ts => wfT t && wfL ts
termination_by ts => sizeOf ts
decreasing_by all_goals (simp_wf <;> omega)

end

mutual

/-- Recursion capacity sufficient to parse the printed form of a term: one
unit per nesting level of the grammar. -/
def need : Term → Nat
  | .Var _ => 1
  | .Dup _ _ e k => 1 + Nat.max (need e) (need k)
  | .Let _ e k => 1 + Nat.max (need e) (need k)
  | .Lam _ k => 1 + need k
  | .App f a => 1 + Nat.max (need f) (need a)
  | .Ctr _ args => 1 + needL args
  | .Num _ => 1
  | .Op2 _ a b => 1 + Nat.max (need a) (need b)
termination_by t => sizeOf t
decreasing_by all_goals (simp_wf <;> omega)

/-- Companion of `need` on argument lists. -/
def needL : List Term → Nat
  | [] => 0
  | t :: ts => Nat.max (need t) (needL ts)
termination_by ts => sizeOf ts
decreasing_by all_goals (simp_wf <;> omega)

end

mutual

/-- The "non-sugar shapes" of the round-trip claim, following the spec words
that name them: every node of the data model qualifies except a `Ctr` whose
name is one of the four sugar names.  This is the literal extent of the
claim, kept beside the stronger `wfT` that the round-trip development
actually needs. -/
def nonSugarT : Term → Bool
  | .Var _ => true
  | .Dup _ _ e k => nonSugarT e && nonSugarT k
  | .Let _ e k => nonSugarT e && nonSugarT k
  | .Lam _ k => nonSugarT k
  | .App f a => nonSugarT f && nonSugarT a
  | .Ctr n args =>
    n != "Cons" && n != "Nil" && n != "StrCons" && n != "StrNil" &&
      nonSugarL args
  | .Num _ => true
  | .Op2 _ a b => nonSugarT a && nonSugarT b
termination_by t => sizeOf t
decreasing_by all_goals (simp_wf <;> omega)

/-- Companion of `nonSugarT` on argument lists. -/
def nonSugarL : List Term → Bool
  | [] => true
  | t :: ts => nonSugarT t && nonSugarL ts
termination_by ts => sizeOf ts
decreasing_by all_goals (simp_wf <;> omega)

end

/-- Input that may legitimately follow a printed subterm: nothing, or a
space, closing parenthesis or semicolon — exactly the separators the
printer emits after a subterm. -/
def boundaryB : List Char → Bool
  | [] => true
  | c :: _ => c = ' ' || c = ')' || c = ';'

/-- Head of the input is not an identifier character (so a maximal
identifier run stops before it). -/
def notNameHead : List Char → Bool
  | [] => true
  | c :: _ => !isNameChar c

/-- Elements of a left-nested application spine, function first. -/
def spineL : Term → List Term
  | .App f a => spineL f ++ [a]
  | t => [t]

/-- Statement pattern of the round-trip development: the parser recovers
the term from its printed form wherever it may occur — after any run of
whitespace, before any legitimate follower, at any offset. -/
def ParsesPrint (pt : Parser Term) (t : Term) : Prop :=
  ∀ ws l off, ws.all isSpaceChar = true → boundaryB l = true →
    pt ⟨ws ++ (printT t ++ l), off⟩ =
      .ok (⟨l, off + ws.length + (printT t).length⟩, t)

/-- String view of an operator's canonical symbol. -/
def operString (o : Oper) : String := ⟨operStr o⟩

/-- Characters that can start the printed form of a well-formed term: an
opening parenthesis, the lambda symbol, a lower-case letter, an
underscore, or a digit. -/
def goodHeadB (c : Char) : Bool :=
  c = '(' || c = 'λ' || isLowerChar c || c.toNat = 95 || isDigitChar c

-- ==========================================================================
-- Character-class lemmas
-- ==========================================================================

theorem char_eq_of_toNat {c d : Char} (h : c.toNat = d.toNat) : c = d := by
  apply Char.ext
  unfold Char.toNat at h
  exact UInt32.ext (by exact h)

theorem nameChar_not_space {c : Char} (h : isNameChar c = true) :
    isSpaceChar c = false := by
  rw [Bool.eq_false_iff]
  intro hs
  simp only [isNameChar, isUpperChar, isLowerChar, isDigitChar,
    Bool.or_eq_true, Bool.and_eq_true, decide_eq_true_eq] at h
  simp only [isSpaceChar, Bool.or_eq_true, decide_eq_true_eq] at hs
  omega

theorem boundary_notNameHead {l : List Char} (h : boundaryB l = true) :
    notNameHead l = true := by
  cases l with
  | nil => rfl
  | cons c cs =>
    simp only [boundaryB, Bool.or_eq_true, decide_eq_true_eq] at h
    rcases h with (h | h) | h <;> subst h <;> simp only [notNameHead] <;> decide

-- ==========================================================================
-- Lemmas about the primitive combinators
-- ==========================================================================

theorem skip_cons {c : Char} (l : List Char) (n : Nat) (h : isSpaceChar c = false) :
    skip ⟨c :: l, n⟩ = ⟨c :: l, n⟩ := by
  simp only [skip, skipAux, h, Bool.false_eq_true, if_false]

theorem skipAux_fix : ∀ (l : List Char) (n : Nat),
    skip (skipAux l n) = skipAux l n := by
  intro l
  induction l with
  | nil => intro n; rfl
  | cons c cs ih =>
    intro n
    by_cases hc : isSpaceChar c = true
    · simp only [skipAux, hc, if_true]
      exact ih (n + 1)
    · rw [Bool.not_eq_true] at hc
      simp only [skipAux, hc, Bool.false_eq_true, if_false]
      exact skip_cons cs n hc

theorem skip_skip (s : PState) : skip (skip s) = skip s := skipAux_fix s.rest s.off

theorem skipAux_spaces : ∀ (ws l : List Char) (n : Nat),
    ws.all isSpaceChar = true → skipAux (ws ++ l) n = skipAux l (n + ws.length) := by
  intro ws
  induction ws with
  | nil => intro l n _; simp
  | cons c cs ih =>
    intro l n hall
    simp only [List.all_cons, Bool.and_eq_true] at hall
    rw [List.cons_append]
    rw [show skipAux (c :: (cs ++ l)) n = skipAux (cs ++ l) (n + 1) by
      simp only [skipAux, hall.1, if_true]]
    rw [ih l (n + 1) hall.2]
    congr 1
    simp only [List.length_cons]
    omega

theorem skip_spaces_cons {ws : List Char} {c : Char} (l : List Char) (n : Nat)
    (hws : ws.all isSpaceChar = true) (hc : isSpaceChar c = false) :
    skip ⟨ws ++ c :: l, n⟩ = ⟨c :: l, n + ws.length⟩ := by
  rw [skip]
  rw [show (PState.mk (ws ++ c :: l) n).rest = ws ++ c :: l from rfl,
    show (PState.mk (ws ++ c :: l) n).off = n from rfl]
  rw [skipAux_spaces ws (c :: l) n hws]
  simp only [skipAux, hc, Bool.false_eq_true, if_false]

theorem skip_spaces_nil {ws : List Char} (n : Nat) (hws : ws.all isSpaceChar = true) :
    skip ⟨ws, n⟩ = ⟨[], n + ws.length⟩ := by
  have h := skipAux_spaces ws [] n hws
  rw [List.append_nil] at h
  rw [skip]
  rw [show (PState.mk ws n).rest = ws from rfl, show (PState.mk ws n).off = n from rfl]
  rw [h]
  rfl

theorem stripPre_refl : ∀ (p l : List Char), stripPre p (p ++ l) = some l := by
  intro p
  induction p with
  | nil => intro l; rfl
  | cons c cs ih => intro l; simp only [List.cons_append, stripPre, if_pos rfl]; exact ih l

theorem stripPre_ne {p c : Char} (ps cs : List Char) (h : p ≠ c) :
    stripPre (p :: ps) (c :: cs) = none := by
  simp [stripPre, h]

theorem text_yes {pat : String} {s : PState} {l0 rest : List Char} {m : Nat}
    (hs : skip s = ⟨l0, m⟩) (hstrip : stripPre pat.data l0 = some rest) :
    text pat s = (⟨rest, m + pat.data.length⟩, true) := by
  simp only [text, hs, hstrip]

theorem text_no {pat : String} {s : PState} {l0 : List Char} {m : Nat}
    (hs : skip s = ⟨l0, m⟩) (hstrip : stripPre pat.data l0 = none) :
    text pat s = (s, false) := by
  simp only [text, hs, hstrip]

theorem consume_yes {pat : String} {s : PState} {l0 rest : List Char} {m : Nat}
    (hs : skip s = ⟨l0, m⟩) (hstrip : stripPre pat.data l0 = some rest) :
    consume pat s = .ok (⟨rest, m + pat.data.length⟩, pat) := by
  simp only [consume, text_yes hs hstrip, if_true]

theorem nameRun_split : ∀ (n l : List Char), n.all isNameChar = true →
    notNameHead l = true → nameRun (n ++ l) = (n, l) := by
  intro n
  induction n with
  | nil =>
    intro l _ hl
    cases l with
    | nil => rfl
    | cons c cs =>
      simp only [notNameHead, Bool.not_eq_true'] at hl
      simp only [List.nil_append, nameRun, hl, Bool.false_eq_true, if_false]
  | cons c cs ih =>
    intro l hall hl
    simp only [List.all_cons, Bool.and_eq_true] at hall
    simp only [List.cons_append, nameRun, hall.1, if_true, List.append_eq,
      ih l hall.2 hl]

theorem pname_eq {s : PState} {n l : List Char} {m : Nat}
    (hs : skip s = ⟨n ++ l, m⟩) (hn : n.all isNameChar = true)
    (hl : notNameHead l = true) :
    pname s = (⟨l, m + n.length⟩, ⟨n⟩) := by
  simp only [pname, hs, nameRun_split n l hn hl]

theorem name1_yes {s : PState} {n l : List Char} {m : Nat}
    (hs : skip s = ⟨n ++ l, m⟩) (hn : n.all isNameChar = true)
    (hne : n.isEmpty = false) (hl : notNameHead l = true) :
    name1 s = .ok (⟨l, m + n.length⟩, ⟨n⟩) := by
  simp only [name1, pname_eq hs hn hl, hne, Bool.false_eq_true, if_false]

theorem get_char_at {s : PState} {c : Char} {cs : List Char} {m : Nat}
    (hs : skip s = ⟨c :: cs, m⟩) : get_char s = (⟨cs, m + 1⟩, c) := by
  simp only [get_char, hs]

theorem pguard_none {α : Type} (pred : Parser Bool) (body : Parser α)
    (s s2 : PState) (h : pred (skip s) = .ok (s2, false)) :
    pguard pred body s = .ok (s, none) := by
  simp only [pguard, h]

theorem pguard_some {α : Type} (pred : Parser Bool) (body : Parser α)
    (s s2 s3 : PState) (v : α) (h1 : pred (skip s) = .ok (s2, true))
    (h2 : body (skip s) = .ok (s3, v)) :
    pguard pred body s = .ok (s3, some v) := by
  simp only [pguard, h1, h2]

theorem grammar_step_none {α : Type} {L : String} {p : Parser (Option α)}
    {ps : List (Parser (Option α))} {s s1 : PState}
    (h : p s = .ok (s1, none)) :
    grammar L (p :: ps) s = grammar L ps s := by
  simp only [grammar, h]

theorem grammar_step_some {α : Type} {L : String} {p : Parser (Option α)}
    {ps : List (Parser (Option α))} {s s1 : PState} {v : α}
    (h : p s = .ok (s1, some v)) :
    grammar L (p :: ps) s = .ok (s1, v) := by
  simp only [grammar, h]

-- ==========================================================================
-- Literal normalisation lemmas
-- ==========================================================================

theorem data_let : ("let " : String).data = ['l', 'e', 't', ' '] := rfl

theorem data_dup : ("dup " : String).data = ['d', 'u', 'p', ' '] := rfl

theorem data_lparen : ("(" : String).data = ['('] := rfl

theorem data_rparen : (")" : String).data = [')'] := rfl

theorem data_eqsign : ("=" : String).data = ['='] := rfl

theorem data_semi : (";" : String).data = [';'] := rfl

theorem data_lambda : ("λ" : String).data = ['λ'] := rfl

theorem data_at : ("@" : String).data = ['@'] := rfl

theorem data_empty : ("" : String).data = [] := rfl

theorem string_eta (s : String) : String.mk s.data = s := rfl

-- ==========================================================================
-- Decimal rendering lemmas
-- ==========================================================================

theorem natReprAux_append : ∀ (n : Nat) (acc : List Char),
    natReprAux n acc = natReprAux n [] ++ acc := by
  intro n
  induction n using Nat.strong_induction_on with
  | _ n ih =>
    intro acc
    by_cases h : n < 10
    · rw [natReprAux, if_pos h, natReprAux, if_pos h]
      rfl
    · rw [natReprAux, if_neg h]
      conv_rhs => rw [natReprAux, if_neg h]
      have hd : n / 10 < n := Nat.div_lt_self (by omega) (by omega)
      rw [ih (n / 10) hd (digitChar (n % 10) :: acc), ih (n / 10) hd [digitChar (n % 10)]]
      simp

theorem digitChar_toNat {d : Nat} (h : d < 10) : (digitChar d).toNat = 48 + d := by
  interval_cases d <;> decide

theorem digitChar_isDigit {d : Nat} (h : d < 10) : isDigitChar (digitChar d) = true := by
  interval_cases d <;> decide

theorem natRepr_shape : ∀ n : Nat, ∃ c cs, natRepr n = c :: cs ∧
    isDigitChar c = true ∧ (c :: cs).all isDigitChar = true := by
  intro n
  induction n using Nat.strong_induction_on with
  | _ n ih =>
    by_cases h : n < 10
    · refine ⟨digitChar n, [], ?_, digitChar_isDigit h, ?_⟩
      · rw [natRepr, natReprAux, if_pos h]
      · simp [digitChar_isDigit h]
    · have hd : n / 10 < n := Nat.div_lt_self (by omega) (by omega)
      obtain ⟨c, cs, hrepr, hc, hall⟩ := ih (n / 10) hd
      refine ⟨c, cs ++ [digitChar (n % 10)], ?_, hc, ?_⟩
      · rw [natRepr, natReprAux, if_neg h, natReprAux_append, ← natRepr, hrepr]
        simp
      · have h10 : n % 10 < 10 := Nat.mod_lt _ (by omega)
        simp only [List.all_cons, Bool.and_eq_true] at hall ⊢
        refine ⟨hall.1, ?_⟩
        simp only [List.all_append, Bool.and_eq_true]
        exact ⟨hall.2, by simp [digitChar_isDigit h10]⟩

theorem natRepr_fold : ∀ n : Nat,
    (natRepr n).foldl (fun a c => 10 * a + (c.toNat - 48)) 0 = n := by
  intro n
  induction n using Nat.strong_induction_on with
  | _ n ih =>
    by_cases h : n < 10
    · rw [natRepr, natReprAux, if_pos h]
      simp only [List.foldl_cons, List.foldl_nil]
      rw [digitChar_toNat h]
      omega
    · have hd : n / 10 < n := Nat.div_lt_self (by omega) (by omega)
      have h10 : n % 10 < 10 := Nat.mod_lt _ (by omega)
      rw [natRepr, natReprAux, if_neg h, natReprAux_append, ← natRepr]
      rw [List.foldl_append]
      rw [ih (n / 10) hd]
      simp only [List.foldl_cons, List.foldl_nil]
      rw [digitChar_toNat h10]
      omega

theorem natRepr_parseU64 {n : Nat} (h : n < 18446744073709551616) :
    parseU64 (natRepr n) = some n := by
  obtain ⟨c, cs, hrepr, _, hall⟩ := natRepr_shape n
  rw [parseU64, hrepr]
  simp only [List.isEmpty_cons, Bool.false_eq_true, if_false]
  rw [← hrepr, if_pos]
  · rw [natRepr_fold n, if_pos h]
  · rw [hrepr]
    exact hall

-- ==========================================================================
-- Name well-formedness unpacking
-- ==========================================================================

theorem validName_spec {n : String} (h : validName n = true) :
    ∃ c cs, n.data = c :: cs ∧ (c :: cs).all isNameChar = true := by
  rw [validName, Bool.and_eq_true, Bool.not_eq_true'] at h
  obtain ⟨h1, h2⟩ := h
  cases hd : n.data with
  | nil => rw [hd] at h1; simp at h1
  | cons c cs =>
    rw [hd] at h2
    exact ⟨c, cs, rfl, h2⟩

theorem validVarName_spec {n : String} (h : validVarName n = true) :
    ∃ c cs, n.data = c :: cs ∧ (isLowerChar c = true ∨ c.toNat = 95) ∧
      (c :: cs).all isNameChar = true ∧ n ≠ "let" ∧ n ≠ "dup" := by
  rw [validVarName, Bool.and_eq_true, Bool.and_eq_true, Bool.and_eq_true] at h
  obtain ⟨⟨⟨h1, h2⟩, h3⟩, h4⟩ := h
  obtain ⟨c, cs, hd, hall⟩ := validName_spec h1
  rw [hd] at h2
  simp only [Bool.or_eq_true, decide_eq_true_eq] at h2
  rw [bne_iff_ne] at h3 h4
  exact ⟨c, cs, hd, h2, hall, h3, h4⟩

theorem validCtrName_spec {n : String} (h : validCtrName n = true) :
    ∃ c cs, n.data = c :: cs ∧ isUpperChar c = true ∧
      (c :: cs).all isNameChar = true ∧
      n ≠ "Cons" ∧ n ≠ "Nil" ∧ n ≠ "StrCons" ∧ n ≠ "StrNil" := by
  rw [validCtrName, Bool.and_eq_true, Bool.and_eq_true, Bool.and_eq_true,
    Bool.and_eq_true, Bool.and_eq_true] at h
  obtain ⟨⟨⟨⟨⟨h1, h2⟩, h3⟩, h4⟩, h5⟩, h6⟩ := h
  obtain ⟨c, cs, hd, hall⟩ := validName_spec h1
  rw [hd] at h2
  rw [bne_iff_ne] at h3 h4 h5 h6
  exact ⟨c, cs, hd, h2, hall, h3, h4, h5, h6⟩

-- ==========================================================================
-- Printer shape lemmas
-- ==========================================================================

theorem strSugarGo_not_sugar {n : String} (args : List Term)
    (h1 : n ≠ "StrCons") (h2 : n ≠ "StrNil") :
    strSugarGo (.Ctr n args) = none := by
  match args with
  | [] => simp [strSugarGo, h2]
  | [a0, a1] => cases a0 <;> simp [strSugarGo, h1]
  | [a0] => simp [strSugarGo]
  | a0 :: a1 :: a2 :: rest => simp [strSugarGo]

theorem lstSugarGo_not_sugar {n : String} (args : List Term) (fst : Bool)
    (h1 : n ≠ "Cons") (h2 : n ≠ "Nil") :
    lstSugarGo (.Ctr n args) fst = none := by
  match args with
  | [] => simp [lstSugarGo, h2]
  | [a0, a1] => simp [lstSugarGo, h1]
  | [a0] => simp [lstSugarGo]
  | a0 :: a1 :: a2 :: rest => simp [lstSugarGo]

theorem printT_ctr_plain {n : String} {args : List Term}
    (h : validCtrName n = true) :
    printT (.Ctr n args) = '(' :: n.data ++ printArgs args ++ [')'] := by
  obtain ⟨c, cs, hd, hu, hall, hc1, hc2, hc3, hc4⟩ := validCtrName_spec h
  rw [printT, strSugarGo_not_sugar args hc3 hc4, lstSugarGo_not_sugar args true hc1 hc2]

theorem printT_shape {t : Term} (h : wfT t = true) :
    ∃ c cs, printT t = c :: cs ∧ goodHeadB c = true := by
  cases t with
  | Var n =>
    rw [wfT] at h
    obtain ⟨c, cs, hd, hhead, _, _, _⟩ := validVarName_spec h
    refine ⟨c, cs, by rw [printT, hd], ?_⟩
    rcases hhead with h' | h' <;> simp [goodHeadB, h']
  | Dup a b e k =>
    exact ⟨'d', _, by rw [printT]; simp only [List.cons_append]; rfl, by decide⟩
  | Let n e k =>
    exact ⟨'l', _, by rw [printT]; simp only [List.cons_append]; rfl, by decide⟩
  | Lam n k => exact ⟨'λ', _, by rw [printT]; simp only [List.cons_append]; rfl, by decide⟩
  | App f a => exact ⟨'(', _, by rw [printT]; simp only [List.cons_append]; rfl, by decide⟩
  | Ctr n args =>
    rw [wfT, Bool.and_eq_true] at h
    exact ⟨'(', _, by rw [printT_ctr_plain h.1]; simp only [List.cons_append]; rfl, by decide⟩
  | Num v =>
    obtain ⟨c, cs, hrepr, hc, _⟩ := natRepr_shape v
    refine ⟨c, cs, by rw [printT, hrepr], ?_⟩
    simp [goodHeadB, hc]
  | Op2 o a b =>
    exact ⟨'(', _, by rw [printT]; simp only [List.cons_append]; rfl, by decide⟩

-- ==========================================================================
-- Character disequality facts
-- ==========================================================================

theorem class_ne {f : Char → Bool} {c d : Char} (h : f c = true) (hd : f d = false) :
    d ≠ c := by
  intro he
  rw [← he] at h
  rw [h] at hd
  simp at hd

theorem boundary_head_cases {c : Char} {cs : List Char}
    (h : boundaryB (c :: cs) = true) : c = ' ' ∨ c = ')' ∨ c = ';' := by
  simp only [boundaryB, Bool.or_eq_true, decide_eq_true_eq] at h
  tauto

theorem nameChar_ne_boundary {k c : Char} (hk : isNameChar k = true)
    (hc : c = ' ' ∨ c = ')' ∨ c = ';') : k ≠ c := by
  rcases hc with h | h | h <;> subst h <;> exact fun he => by
    rw [he] at hk; exact absurd hk (by decide)

theorem goodHead_cases {c : Char} (h : goodHeadB c = true) :
    c = '(' ∨ c = 'λ' ∨ (97 ≤ c.toNat ∧ c.toNat ≤ 122) ∨ c.toNat = 95 ∨
      (48 ≤ c.toNat ∧ c.toNat ≤ 57) := by
  simp only [goodHeadB, isLowerChar, isDigitChar, Bool.or_eq_true,
    Bool.and_eq_true, decide_eq_true_eq] at h
  tauto

theorem goodHead_not_space {c : Char} (h : goodHeadB c = true) :
    isSpaceChar c = false := by
  rcases goodHead_cases h with h' | h' | h' | h' | h'
  · subst h'; decide
  · subst h'; decide
  all_goals
    rw [Bool.eq_false_iff]
    intro hs
    simp only [isSpaceChar, Bool.or_eq_true, decide_eq_true_eq] at hs
    omega

theorem goodHead_not_upper {c : Char} (h : goodHeadB c = true) :
    isUpperChar c = false := by
  rcases goodHead_cases h with h' | h' | h' | h' | h'
  · subst h'; decide
  · subst h'; decide
  all_goals
    rw [Bool.eq_false_iff]
    intro hs
    simp only [isUpperChar, Bool.and_eq_true, decide_eq_true_eq] at hs
    omega

theorem goodHead_not_op {c : Char} (h : goodHeadB c = true) :
    is_op_char c = false := by
  rcases goodHead_cases h with h' | h' | h' | h' | h'
  · subst h'; decide
  · subst h'; decide
  all_goals
    rw [Bool.eq_false_iff]
    intro hs
    simp only [is_op_char, Bool.or_eq_true, decide_eq_true_eq] at hs
    rcases hs with (((((((((((hs|hs)|hs)|hs)|hs)|hs)|hs)|hs)|hs)|hs)|hs)|hs) <;>
      subst hs <;> exact absurd h' (by decide)

theorem goodHead_ne {c d : Char} (h : goodHeadB c = true)
    (hd : goodHeadB d = false) : d ≠ c := class_ne h hd

-- ==========================================================================
-- Rejection lemmas: each grammar alternative declines on input whose next
-- significant character cannot start it
-- ==========================================================================

theorem parse_let_reject {pt : Parser Term} {s : PState} {c : Char}
    {l : List Char} {m : Nat} (hs : skip s = ⟨c :: l, m⟩) (hne : 'l' ≠ c) :
    parse_let pt s = .ok (s, none) := by
  have h2 : skip (skip s) = ⟨c :: l, m⟩ := by rw [skip_skip, hs]
  have hstrip : stripPre ("let " : String).data (c :: l) = none := by
    rw [data_let]; exact stripPre_ne _ _ hne
  rw [parse_let]
  exact pguard_none _ _ s (skip s) (by simp only [text_no h2 hstrip])

theorem parse_dup_reject {pt : Parser Term} {s : PState} {c : Char}
    {l : List Char} {m : Nat} (hs : skip s = ⟨c :: l, m⟩) (hne : 'd' ≠ c) :
    parse_dup pt s = .ok (s, none) := by
  have h2 : skip (skip s) = ⟨c :: l, m⟩ := by rw [skip_skip, hs]
  have hstrip : stripPre ("dup " : String).data (c :: l) = none := by
    rw [data_dup]; exact stripPre_ne _ _ hne
  rw [parse_dup]
  exact pguard_none _ _ s (skip s) (by simp only [text_no h2 hstrip])

theorem parse_lam_reject {pt : Parser Term} {s : PState} {c : Char}
    {l : List Char} {m : Nat} (hs : skip s = ⟨c :: l, m⟩)
    (hne1 : 'λ' ≠ c) (hne2 : '@' ≠ c) :
    parse_lam pt s = .ok (s, none) := by
  have h2 : skip (skip s) = ⟨c :: l, m⟩ := by rw [skip_skip, hs]
  have hstrip1 : stripPre ("λ" : String).data (c :: l) = none := by
    rw [data_lambda]; exact stripPre_ne _ _ hne1
  have hstrip2 : stripPre ("@" : String).data (c :: l) = none := by
    rw [data_at]; exact stripPre_ne _ _ hne2
  rw [parse_lam]
  refine pguard_none _ _ s (skip s) ?_
  simp only [por, text_no h2 hstrip1, text_no h2 hstrip2, Bool.false_eq_true,
    if_false]

theorem parse_ctr_reject_noparen {pt : Parser Term} {s : PState} {c : Char}
    {l : List Char} {m : Nat} (hs : skip s = ⟨c :: l, m⟩)
    (hne : '(' ≠ c) (hup : isUpperChar c = false) :
    parse_ctr pt s = .ok (s, none) := by
  have h2 : skip (skip s) = ⟨c :: l, m⟩ := by rw [skip_skip, hs]
  have hstrip : stripPre ("(" : String).data (c :: l) = none := by
    rw [data_lparen]; exact stripPre_ne _ _ hne
  rw [parse_ctr]
  exact pguard_none _ _ s ⟨l, m + 1⟩
    (by simp only [text_no h2 hstrip, get_char_at h2, hup])

theorem text_lparen_yes {s : PState} {c : Char} {l : List Char} {m : Nat}
    (h2 : skip s = ⟨'(' :: c :: l, m⟩) :
    text "(" s = (⟨c :: l, m + 1⟩, true) := by
  have := text_yes h2
    (show stripPre ("(" : String).data ('(' :: c :: l) = some (c :: l) by
      rw [data_lparen]; exact stripPre_refl ['('] (c :: l))
  rw [this, data_lparen]
  rfl

theorem parse_ctr_reject_paren {pt : Parser Term} {s : PState} {c : Char}
    {l : List Char} {m : Nat} (hs : skip s = ⟨'(' :: c :: l, m⟩)
    (hcs : isSpaceChar c = false) (hup : isUpperChar c = false) :
    parse_ctr pt s = .ok (s, none) := by
  have h2 : skip (skip s) = ⟨'(' :: c :: l, m⟩ := by rw [skip_skip, hs]
  have hget : get_char (⟨c :: l, m + 1⟩ : PState) = (⟨l, m + 2⟩, c) := by
    have : skip (⟨c :: l, m + 1⟩ : PState) = ⟨c :: l, m + 1⟩ := skip_cons l (m + 1) hcs
    rw [get_char_at this]
  rw [parse_ctr]
  exact pguard_none _ _ s ⟨l, m + 2⟩
    (by simp only [text_lparen_yes h2, hget, hup])

theorem parse_op2_reject_noparen {pt : Parser Term} {s : PState} {c : Char}
    {l : List Char} {m : Nat} (hs : skip s = ⟨c :: l, m⟩) (hne : '(' ≠ c) :
    parse_op2 pt s = .ok (s, none) := by
  have h2 : skip (skip s) = ⟨c :: l, m⟩ := by rw [skip_skip, hs]
  have hstrip : stripPre ("(" : String).data (c :: l) = none := by
    rw [data_lparen]; exact stripPre_ne _ _ hne
  rw [parse_op2]
  exact pguard_none _ _ s ⟨l, m + 1⟩
    (by simp only [text_no h2 hstrip, get_char_at h2, Bool.false_and])

theorem parse_op2_reject_paren {pt : Parser Term} {s : PState} {c : Char}
    {l : List Char} {m : Nat} (hs : skip s = ⟨'(' :: c :: l, m⟩)
    (hcs : isSpaceChar c = false) (hop : is_op_char c = false) :
    parse_op2 pt s = .ok (s, none) := by
  have h2 : skip (skip s) = ⟨'(' :: c :: l, m⟩ := by rw [skip_skip, hs]
  have hget : get_char (⟨c :: l, m + 1⟩ : PState) = (⟨l, m + 2⟩, c) := by
    have : skip (⟨c :: l, m + 1⟩ : PState) = ⟨c :: l, m + 1⟩ := skip_cons l (m + 1) hcs
    rw [get_char_at this]
  rw [parse_op2]
  exact pguard_none _ _ s ⟨l, m + 2⟩
    (by simp only [text_lparen_yes h2, hget, hop, Bool.true_and])

theorem parse_app_reject {pt : Parser Term} {s : PState} {c : Char}
    {l : List Char} {m : Nat} (hs : skip s = ⟨c :: l, m⟩) (hne : '(' ≠ c) :
    parse_app pt s = .ok (s, none) := by
  have h2 : skip (skip s) = ⟨c :: l, m⟩ := by rw [skip_skip, hs]
  have hstrip : stripPre ("(" : String).data (c :: l) = none := by
    rw [data_lparen]; exact stripPre_ne _ _ hne
  rw [parse_app]
  exact pguard_none _ _ s (skip s) (by simp only [text_no h2 hstrip])

theorem parse_u60_reject {s : PState} {c : Char}
    {l : List Char} {m : Nat} (hs : skip s = ⟨c :: l, m⟩)
    (hd : isDigitChar c = false) :
    parse_u60 s = .ok (s, none) := by
  have h2 : skip (skip s) = ⟨c :: l, m⟩ := by rw [skip_skip, hs]
  rw [parse_u60]
  exact pguard_none _ _ s ⟨l, m + 1⟩ (by simp only [get_char_at h2, hd])

theorem parse_chr_reject {s : PState} {c : Char}
    {l : List Char} {m : Nat} (hs : skip s = ⟨c :: l, m⟩)
    (hd : c ≠ Char.ofNat 39) :
    parse_chr_sugar s = .ok (s, none) := by
  have h2 : skip (skip s) = ⟨c :: l, m⟩ := by rw [skip_skip, hs]
  rw [parse_chr_sugar]
  exact pguard_none _ _ s ⟨l, m + 1⟩
    (by simp only [get_char_at h2, decide_eq_false hd])

theorem parse_str_reject {s : PState} {c : Char}
    {l : List Char} {m : Nat} (hs : skip s = ⟨c :: l, m⟩)
    (hd1 : c ≠ '"') (hd2 : c ≠ Char.ofNat 96) :
    parse_str_sugar s = .ok (s, none) := by
  have h2 : skip (skip s) = ⟨c :: l, m⟩ := by rw [skip_skip, hs]
  rw [parse_str_sugar]
  exact pguard_none _ _ s ⟨l, m + 1⟩
    (by simp only [get_char_at h2, decide_eq_false hd1, decide_eq_false hd2,
      Bool.or_false])

theorem parse_lst_reject {pt : Parser Term} {s : PState} {c : Char}
    {l : List Char} {m : Nat} (hs : skip s = ⟨c :: l, m⟩)
    (hd : c ≠ '[') :
    parse_lst_sugar pt s = .ok (s, none) := by
  have h2 : skip (skip s) = ⟨c :: l, m⟩ := by rw [skip_skip, hs]
  rw [parse_lst_sugar]
  exact pguard_none _ _ s ⟨l, m + 1⟩
    (by simp only [get_char_at h2, decide_eq_false hd])

-- ==========================================================================
-- Acceptance lemmas: each alternative recovers its own printed form
-- ==========================================================================

theorem digit_isName {c : Char} (h : isDigitChar c = true) : isNameChar c = true := by
  simp [isNameChar, h]

theorem all_digit_name {l : List Char} (h : l.all isDigitChar = true) :
    l.all isNameChar = true := by
  rw [List.all_eq_true] at h ⊢
  intro x hx
  exact digit_isName (h x hx)

theorem parse_var_print {s : PState} {n : String} {l : List Char} {m : Nat}
    (hs : skip s = ⟨n.data ++ l, m⟩) (hn : validVarName n = true)
    (hb : boundaryB l = true) :
    parse_var s = .ok (⟨l, m + n.data.length⟩, Term.Var n) := by
  obtain ⟨c, cs, hd, hhead, hall, _, _⟩ := validVarName_spec hn
  have h2 : skip (skip s) = ⟨n.data ++ l, m⟩ := by rw [skip_skip, hs]
  have h2' : skip (skip s) = ⟨c :: (cs ++ l), m⟩ := by
    rw [h2, hd, List.cons_append]
  have hget : get_char (skip s) = (⟨cs ++ l, m + 1⟩, c) := get_char_at h2'
  have hpn : pname (skip s) = (⟨l, m + n.data.length⟩, ⟨n.data⟩) := by
    refine pname_eq h2 ?_ (boundary_notNameHead hb)
    rw [hd]; exact hall
  rw [parse_var]
  refine pguard_some _ _ s ⟨cs ++ l, m + 1⟩ ⟨l, m + n.data.length⟩ (Term.Var n) ?_ ?_
  · simp only [hget]
    rcases hhead with h' | h'
    · simp [h']
    · have hc : c = '_' := char_eq_of_toNat (by rw [h']; decide)
      simp [hc]
  · simp only [hpn, string_eta]

theorem parse_u60_print {s : PState} {n : Nat} {l : List Char} {m : Nat}
    (hs : skip s = ⟨natRepr n ++ l, m⟩) (hn : n < 18446744073709551616)
    (hb : boundaryB l = true) :
    parse_u60 s = .ok (⟨l, m + (natRepr n).length⟩, Term.Num n) := by
  obtain ⟨c, cs, hrepr, hdig, hall⟩ := natRepr_shape n
  have h2 : skip (skip s) = ⟨natRepr n ++ l, m⟩ := by rw [skip_skip, hs]
  have h2' : skip (skip s) = ⟨c :: (cs ++ l), m⟩ := by
    rw [h2, hrepr, List.cons_append]
  have hget : get_char (skip s) = (⟨cs ++ l, m + 1⟩, c) := get_char_at h2'
  have hname : name1 (skip s) = .ok (⟨l, m + (natRepr n).length⟩, ⟨natRepr n⟩) := by
    refine name1_yes h2 (all_digit_name (by rw [hrepr]; exact hall)) ?_
      (boundary_notNameHead hb)
    rw [hrepr]; rfl
  rw [parse_u60]
  refine pguard_some _ _ s ⟨cs ++ l, m + 1⟩ ⟨l, m + (natRepr n).length⟩
    (Term.Num n) ?_ ?_
  · simp only [hget, hdig]
  · simp only [hname]
    rw [show (natRepr n).isEmpty = false by rw [hrepr]; rfl]
    simp only [Bool.false_eq_true, if_false, natRepr_parseU64 hn]

theorem parse_lam_print {pt : Parser Term} {s : PState} {nm : String} {k : Term}
    {l : List Char} {m : Nat}
    (hs : skip s = ⟨printT (Term.Lam nm k) ++ l, m⟩)
    (hn : validName nm = true) (hk : ParsesPrint pt k) (hb : boundaryB l = true) :
    parse_lam pt s =
      .ok (⟨l, m + (printT (Term.Lam nm k)).length⟩, Term.Lam nm k) := by
  obtain ⟨c, cs, hd, hall⟩ := validName_spec hn
  have h2 : skip (skip s) = ⟨printT (Term.Lam nm k) ++ l, m⟩ := by rw [skip_skip, hs]
  have hsplit : printT (Term.Lam nm k) ++ l = 'λ' :: (nm.data ++ (' ' :: (printT k ++ l))) := by
    rw [printT]
    simp only [List.cons_append, List.append_assoc]
  have h2' : skip (skip s) = ⟨'λ' :: (nm.data ++ (' ' :: (printT k ++ l))), m⟩ := by
    rw [h2, hsplit]
  have htextlam : text "λ" (skip s) = (⟨nm.data ++ (' ' :: (printT k ++ l)), m + 1⟩, true) := by
    have := text_yes h2'
      (show stripPre ("λ" : String).data ('λ' :: (nm.data ++ (' ' :: (printT k ++ l)))) =
        some (nm.data ++ (' ' :: (printT k ++ l))) by
        rw [data_lambda]
        exact stripPre_refl ['λ'] _)
    rw [this, data_lambda]
    rfl
  have hpor : por [text "λ", text "@"] (skip s) =
      (⟨nm.data ++ (' ' :: (printT k ++ l)), m + 1⟩, true) := by
    rw [por, htextlam]
    rfl
  have hpn : pname (⟨nm.data ++ (' ' :: (printT k ++ l)), m + 1⟩ : PState) =
      (⟨' ' :: (printT k ++ l), m + 1 + nm.data.length⟩, ⟨nm.data⟩) := by
    have hskip : skip (⟨nm.data ++ (' ' :: (printT k ++ l)), m + 1⟩ : PState) =
        ⟨nm.data ++ (' ' :: (printT k ++ l)), m + 1⟩ := by
      rw [hd, List.cons_append]
      refine skip_cons _ _ (nameChar_not_space ?_)
      rw [List.all_cons, Bool.and_eq_true] at hall
      exact hall.1
    refine pname_eq hskip ?_ (by rw [notNameHead]; decide)
    rw [hd]; exact hall
  have hpt : pt (⟨' ' :: (printT k ++ l), m + 1 + nm.data.length⟩ : PState) =
      .ok (⟨l, m + 1 + nm.data.length + 1 + (printT k).length⟩, k) := by
    have := hk [' '] l (m + 1 + nm.data.length) (by decide) hb
    rw [show ([' '] ++ (printT k ++ l) : List Char) = ' ' :: (printT k ++ l) from rfl] at this
    rw [this]
    rfl
  have hlen : m + (printT (Term.Lam nm k)).length =
      m + 1 + nm.data.length + 1 + (printT k).length := by
    rw [printT]
    simp only [List.cons_append, List.length_cons, List.length_append]
    omega
  rw [parse_lam, hlen]
  refine pguard_some _ _ s ⟨nm.data ++ (' ' :: (printT k ++ l)), m + 1⟩
    ⟨l, m + 1 + nm.data.length + 1 + (printT k).length⟩
    (Term.Lam nm k) ?_ ?_
  · show Except.ok (por [text "λ", text "@"] (skip s)) = _
    rw [hpor]
  · simp only [hpor, hpn, hpt, string_eta]

theorem notNameHead_cons {c : Char} (X : List Char) (h : isNameChar c = false) :
    notNameHead (c :: X) = true := by
  simp [notNameHead, h]

theorem skip_space1 {c : Char} (l : List Char) (n : Nat) (hc : isSpaceChar c = false) :
    skip ⟨' ' :: (c :: l), n⟩ = ⟨c :: l, n + 1⟩ := by
  show skipAux (' ' :: (c :: l)) n = _
  rw [skipAux]
  simp only [show isSpaceChar ' ' = true from rfl, if_true]
  exact skip_cons l (n + 1) hc

theorem boundaryB_semi (X : List Char) : boundaryB (';' :: X) = true := by
  simp [boundaryB]

theorem boundaryB_space (X : List Char) : boundaryB (' ' :: X) = true := by
  simp [boundaryB]

theorem boundaryB_rparen (X : List Char) : boundaryB (')' :: X) = true := by
  simp [boundaryB]

theorem parse_let_print {pt : Parser Term} {s : PState} {nm : String} {e k : Term}
    {l : List Char} {m : Nat}
    (hs : skip s = ⟨printT (Term.Let nm e k) ++ l, m⟩)
    (hn : validName nm = true) (hpe : ParsesPrint pt e) (hpk : ParsesPrint pt k)
    (hb : boundaryB l = true) :
    parse_let pt s =
      .ok (⟨l, m + (printT (Term.Let nm e k)).length⟩, Term.Let nm e k) := by
  obtain ⟨c, cs, hd, hall⟩ := validName_spec hn
  have h2 : skip (skip s) = ⟨printT (Term.Let nm e k) ++ l, m⟩ := by rw [skip_skip, hs]
  have hsplit : printT (Term.Let nm e k) ++ l =
      'l' :: 'e' :: 't' :: ' ' :: (nm.data ++ (' ' :: '=' :: ' ' ::
        (printT e ++ (';' :: ' ' :: (printT k ++ l))))) := by
    rw [printT]
    simp only [List.cons_append, List.append_assoc]
  have h2' : skip (skip s) = ⟨'l' :: 'e' :: 't' :: ' ' :: (nm.data ++ (' ' :: '=' :: ' ' ::
      (printT e ++ (';' :: ' ' :: (printT k ++ l))))), m⟩ := by rw [h2, hsplit]
  have htext0 : text "let " (skip s) = (⟨nm.data ++ (' ' :: '=' :: ' ' ::
      (printT e ++ (';' :: ' ' :: (printT k ++ l)))), m + 4⟩, true) := by
    have hstrip : stripPre ("let " : String).data ('l' :: 'e' :: 't' :: ' ' ::
        (nm.data ++ (' ' :: '=' :: ' ' :: (printT e ++ (';' :: ' ' :: (printT k ++ l)))))) =
        some (nm.data ++ (' ' :: '=' :: ' ' ::
          (printT e ++ (';' :: ' ' :: (printT k ++ l))))) := by
      rw [data_let]
      exact stripPre_refl ['l', 'e', 't', ' '] _
    rw [text_yes h2' hstrip, data_let]
    rfl
  have hcons0 : consume "let " (skip s) = .ok (⟨nm.data ++ (' ' :: '=' :: ' ' ::
      (printT e ++ (';' :: ' ' :: (printT k ++ l)))), m + 4⟩, "let ") := by
    have hstrip0 : stripPre ("let " : String).data ('l' :: 'e' :: 't' :: ' ' ::
        (nm.data ++ (' ' :: '=' :: ' ' :: (printT e ++ (';' :: ' ' :: (printT k ++ l)))))) =
        some (nm.data ++ (' ' :: '=' :: ' ' ::
          (printT e ++ (';' :: ' ' :: (printT k ++ l))))) := by
      rw [data_let]
      exact stripPre_refl ['l', 'e', 't', ' '] _
    rw [consume_yes h2' hstrip0]
    rfl
  have hskip1 : skip ⟨nm.data ++ (' ' :: '=' :: ' ' ::
      (printT e ++ (';' :: ' ' :: (printT k ++ l)))), m + 4⟩ =
      ⟨nm.data ++ (' ' :: '=' :: ' ' ::
        (printT e ++ (';' :: ' ' :: (printT k ++ l)))), m + 4⟩ := by
    rw [hd, List.cons_append]
    refine skip_cons _ _ (nameChar_not_space ?_)
    rw [List.all_cons, Bool.and_eq_true] at hall
    exact hall.1
  have hname : name1 ⟨nm.data ++ (' ' :: '=' :: ' ' ::
      (printT e ++ (';' :: ' ' :: (printT k ++ l)))), m + 4⟩ =
      .ok (⟨' ' :: '=' :: ' ' :: (printT e ++ (';' :: ' ' :: (printT k ++ l))),
        m + 4 + nm.data.length⟩, ⟨nm.data⟩) := by
    refine name1_yes hskip1 (by rw [hd]; exact hall) (by rw [hd]; rfl)
      (notNameHead_cons _ (by decide))
  have hskip2 : skip ⟨' ' :: '=' :: ' ' :: (printT e ++ (';' :: ' ' :: (printT k ++ l))),
      m + 4 + nm.data.length⟩ =
      ⟨'=' :: ' ' :: (printT e ++ (';' :: ' ' :: (printT k ++ l))),
        m + 4 + nm.data.length + 1⟩ := skip_space1 _ _ (by decide)
  have hcons2 : consume "=" ⟨' ' :: '=' :: ' ' :: (printT e ++ (';' :: ' ' :: (printT k ++ l))),
      m + 4 + nm.data.length⟩ =
      .ok (⟨' ' :: (printT e ++ (';' :: ' ' :: (printT k ++ l))),
        m + 4 + nm.data.length + 1 + 1⟩, "=") := by
    have hstrip : stripPre ("=" : String).data ('=' :: (' ' ::
        (printT e ++ (';' :: ' ' :: (printT k ++ l))))) =
        some (' ' :: (printT e ++ (';' :: ' ' :: (printT k ++ l)))) := by
      rw [data_eqsign]
      exact stripPre_refl ['='] _
    rw [consume_yes hskip2 hstrip]
    rfl
  have hpt1 : pt ⟨' ' :: (printT e ++ (';' :: ' ' :: (printT k ++ l))),
      m + 4 + nm.data.length + 1 + 1⟩ =
      .ok (⟨';' :: ' ' :: (printT k ++ l),
        m + 4 + nm.data.length + 1 + 1 + 1 + (printT e).length⟩, e) := by
    have := hpe [' '] (';' :: ' ' :: (printT k ++ l)) (m + 4 + nm.data.length + 1 + 1)
      (by decide) (boundaryB_semi _)
    exact this
  have hskip3 : skip ⟨';' :: ' ' :: (printT k ++ l),
      m + 4 + nm.data.length + 1 + 1 + 1 + (printT e).length⟩ =
      ⟨';' :: ' ' :: (printT k ++ l),
        m + 4 + nm.data.length + 1 + 1 + 1 + (printT e).length⟩ :=
    skip_cons _ _ (by decide)
  have htext3 : text ";" ⟨';' :: ' ' :: (printT k ++ l),
      m + 4 + nm.data.length + 1 + 1 + 1 + (printT e).length⟩ =
      (⟨' ' :: (printT k ++ l),
        m + 4 + nm.data.length + 1 + 1 + 1 + (printT e).length + 1⟩, true) := by
    have hstrip : stripPre (";" : String).data (';' :: (' ' :: (printT k ++ l))) =
        some (' ' :: (printT k ++ l)) := by
      rw [data_semi]
      exact stripPre_refl [';'] _
    rw [text_yes hskip3 hstrip, data_semi]
    rfl
  have hpt2 : pt ⟨' ' :: (printT k ++ l),
      m + 4 + nm.data.length + 1 + 1 + 1 + (printT e).length + 1⟩ =
      .ok (⟨l, m + 4 + nm.data.length + 1 + 1 + 1 + (printT e).length + 1 + 1 +
        (printT k).length⟩, k) := by
    have := hpk [' '] l (m + 4 + nm.data.length + 1 + 1 + 1 + (printT e).length + 1)
      (by decide) hb
    exact this
  have hlen : m + (printT (Term.Let nm e k)).length =
      m + 4 + nm.data.length + 1 + 1 + 1 + (printT e).length + 1 + 1 +
        (printT k).length := by
    rw [printT]
    simp only [List.cons_append, List.length_cons, List.length_append]
    omega
  rw [parse_let, hlen]
  refine pguard_some _ _ s
    ⟨nm.data ++ (' ' :: '=' :: ' ' :: (printT e ++ (';' :: ' ' :: (printT k ++ l)))), m + 4⟩
    ⟨l, m + 4 + nm.data.length + 1 + 1 + 1 + (printT e).length + 1 + 1 + (printT k).length⟩
    (Term.Let nm e k) ?_ ?_
  · show Except.ok (text "let " (skip s)) = _
    rw [htext0]
  · simp only [hcons0, hname, hcons2, hpt1, htext3, hpt2, string_eta]

theorem parse_dup_print {pt : Parser Term} {s : PState} {na nb : String} {e k : Term}
    {l : List Char} {m : Nat}
    (hs : skip s = ⟨printT (Term.Dup na nb e k) ++ l, m⟩)
    (hna : validName na = true) (hnb : validName nb = true)
    (hpe : ParsesPrint pt e) (hpk : ParsesPrint pt k)
    (hb : boundaryB l = true) :
    parse_dup pt s =
      .ok (⟨l, m + (printT (Term.Dup na nb e k)).length⟩, Term.Dup na nb e k) := by
  obtain ⟨c, cs, hd, hall⟩ := validName_spec hna
  obtain ⟨c2, cs2, hd2, hall2⟩ := validName_spec hnb
  have h2 : skip (skip s) = ⟨printT (Term.Dup na nb e k) ++ l, m⟩ := by rw [skip_skip, hs]
  have hsplit : printT (Term.Dup na nb e k) ++ l =
      'd' :: 'u' :: 'p' :: ' ' :: (na.data ++ (' ' :: (nb.data ++ (' ' :: '=' :: ' ' ::
        (printT e ++ (';' :: ' ' :: (printT k ++ l))))))) := by
    rw [printT]
    simp only [List.cons_append, List.append_assoc]
  have h2' : skip (skip s) = ⟨'d' :: 'u' :: 'p' :: ' ' :: (na.data ++ (' ' :: (nb.data ++
      (' ' :: '=' :: ' ' :: (printT e ++ (';' :: ' ' :: (printT k ++ l))))))), m⟩ := by
    rw [h2, hsplit]
  have hstrip0 : stripPre ("dup " : String).data ('d' :: 'u' :: 'p' :: ' ' ::
      (na.data ++ (' ' :: (nb.data ++ (' ' :: '=' :: ' ' ::
        (printT e ++ (';' :: ' ' :: (printT k ++ l)))))))) =
      some (na.data ++ (' ' :: (nb.data ++ (' ' :: '=' :: ' ' ::
        (printT e ++ (';' :: ' ' :: (printT k ++ l))))))) := by
    rw [data_dup]
    exact stripPre_refl ['d', 'u', 'p', ' '] _
  have htext0 : text "dup " (skip s) = (⟨na.data ++ (' ' :: (nb.data ++ (' ' :: '=' :: ' ' ::
      (printT e ++ (';' :: ' ' :: (printT k ++ l)))))), m + 4⟩, true) := by
    rw [text_yes h2' hstrip0, data_dup]
    rfl
  have hcons0 : consume "dup " (skip s) = .ok (⟨na.data ++ (' ' :: (nb.data ++
      (' ' :: '=' :: ' ' :: (printT e ++ (';' :: ' ' :: (printT k ++ l)))))), m + 4⟩,
      "dup ") := by
    rw [consume_yes h2' hstrip0]
    rfl
  have hskip1 : skip ⟨na.data ++ (' ' :: (nb.data ++ (' ' :: '=' :: ' ' ::
      (printT e ++ (';' :: ' ' :: (printT k ++ l)))))), m + 4⟩ =
      ⟨na.data ++ (' ' :: (nb.data ++ (' ' :: '=' :: ' ' ::
        (printT e ++ (';' :: ' ' :: (printT k ++ l)))))), m + 4⟩ := by
    rw [hd, List.cons_append]
    refine skip_cons _ _ (nameChar_not_space ?_)
    rw [List.all_cons, Bool.and_eq_true] at hall
    exact hall.1
  have hname : name1 ⟨na.data ++ (' ' :: (nb.data ++ (' ' :: '=' :: ' ' ::
      (printT e ++ (';' :: ' ' :: (printT k ++ l)))))), m + 4⟩ =
      .ok (⟨' ' :: (nb.data ++ (' ' :: '=' :: ' ' ::
        (printT e ++ (';' :: ' ' :: (printT k ++ l))))), m + 4 + na.data.length⟩,
        ⟨na.data⟩) :=
    name1_yes hskip1 (by rw [hd]; exact hall) (by rw [hd]; rfl)
      (notNameHead_cons _ (by decide))
  have hskip2 : skip ⟨' ' :: (nb.data ++ (' ' :: '=' :: ' ' ::
      (printT e ++ (';' :: ' ' :: (printT k ++ l))))), m + 4 + na.data.length⟩ =
      ⟨nb.data ++ (' ' :: '=' :: ' ' :: (printT e ++ (';' :: ' ' :: (printT k ++ l)))),
        m + 4 + na.data.length + 1⟩ := by
    rw [hd2, List.cons_append]
    refine skip_space1 _ _ (nameChar_not_space ?_)
    rw [List.all_cons, Bool.and_eq_true] at hall2
    exact hall2.1
  have hname2 : name1 ⟨' ' :: (nb.data ++ (' ' :: '=' :: ' ' ::
      (printT e ++ (';' :: ' ' :: (printT k ++ l))))), m + 4 + na.data.length⟩ =
      .ok (⟨' ' :: '=' :: ' ' :: (printT e ++ (';' :: ' ' :: (printT k ++ l))),
        m + 4 + na.data.length + 1 + nb.data.length⟩, ⟨nb.data⟩) :=
    name1_yes hskip2 (by rw [hd2]; exact hall2) (by rw [hd2]; rfl)
      (notNameHead_cons _ (by decide))
  have hskip3 : skip ⟨' ' :: '=' :: ' ' :: (printT e ++ (';' :: ' ' :: (printT k ++ l))),
      m + 4 + na.data.length + 1 + nb.data.length⟩ =
      ⟨'=' :: ' ' :: (printT e ++ (';' :: ' ' :: (printT k ++ l))),
        m + 4 + na.data.length + 1 + nb.data.length + 1⟩ := skip_space1 _ _ (by decide)
  have hcons2 : consume "=" ⟨' ' :: '=' :: ' ' ::
      (printT e ++ (';' :: ' ' :: (printT k ++ l))),
      m + 4 + na.data.length + 1 + nb.data.length⟩ =
      .ok (⟨' ' :: (printT e ++ (';' :: ' ' :: (printT k ++ l))),
        m + 4 + na.data.length + 1 + nb.data.length + 1 + 1⟩, "=") := by
    have hstrip : stripPre ("=" : String).data ('=' :: (' ' ::
        (printT e ++ (';' :: ' ' :: (printT k ++ l))))) =
        some (' ' :: (printT e ++ (';' :: ' ' :: (printT k ++ l)))) := by
      rw [data_eqsign]
      exact stripPre_refl ['='] _
    rw [consume_yes hskip3 hstrip]
    rfl
  have hpt1 : pt ⟨' ' :: (printT e ++ (';' :: ' ' :: (printT k ++ l))),
      m + 4 + na.data.length + 1 + nb.data.length + 1 + 1⟩ =
      .ok (⟨';' :: ' ' :: (printT k ++ l),
        m + 4 + na.data.length + 1 + nb.data.length + 1 + 1 + 1 + (printT e).length⟩, e) :=
    hpe [' '] (';' :: ' ' :: (printT k ++ l))
      (m + 4 + na.data.length + 1 + nb.data.length + 1 + 1) (by decide) (boundaryB_semi _)
  have hskip4 : skip ⟨';' :: ' ' :: (printT k ++ l),
      m + 4 + na.data.length + 1 + nb.data.length + 1 + 1 + 1 + (printT e).length⟩ =
      ⟨';' :: ' ' :: (printT k ++ l),
        m + 4 + na.data.length + 1 + nb.data.length + 1 + 1 + 1 + (printT e).length⟩ :=
    skip_cons _ _ (by decide)
  have htext3 : text ";" ⟨';' :: ' ' :: (printT k ++ l),
      m + 4 + na.data.length + 1 + nb.data.length + 1 + 1 + 1 + (printT e).length⟩ =
      (⟨' ' :: (printT k ++ l),
        m + 4 + na.data.length + 1 + nb.data.length + 1 + 1 + 1 + (printT e).length + 1⟩,
        true) := by
    have hstrip : stripPre (";" : String).data (';' :: (' ' :: (printT k ++ l))) =
        some (' ' :: (printT k ++ l)) := by
      rw [data_semi]
      exact stripPre_refl [';'] _
    rw [text_yes hskip4 hstrip, data_semi]
    rfl
  have hpt2 : pt ⟨' ' :: (printT k ++ l),
      m + 4 + na.data.length + 1 + nb.data.length + 1 + 1 + 1 + (printT e).length + 1⟩ =
      .ok (⟨l, m + 4 + na.data.length + 1 + nb.data.length + 1 + 1 + 1 +
        (printT e).length + 1 + 1 + (printT k).length⟩, k) :=
    hpk [' '] l (m + 4 + na.data.length + 1 + nb.data.length + 1 + 1 + 1 +
      (printT e).length + 1) (by decide) hb
  have hlen : m + (printT (Term.Dup na nb e k)).length =
      m + 4 + na.data.length + 1 + nb.data.length + 1 + 1 + 1 + (printT e).length +
        1 + 1 + (printT k).length := by
    rw [printT]
    simp only [List.cons_append, List.length_cons, List.length_append]
    omega
  rw [parse_dup, hlen]
  refine pguard_some _ _ s
    ⟨na.data ++ (' ' :: (nb.data ++ (' ' :: '=' :: ' ' ::
      (printT e ++ (';' :: ' ' :: (printT k ++ l)))))), m + 4⟩
    ⟨l, m + 4 + na.data.length + 1 + nb.data.length + 1 + 1 + 1 + (printT e).length +
      1 + 1 + (printT k).length⟩
    (Term.Dup na nb e k) ?_ ?_
  · show Except.ok (text "dup " (skip s)) = _
    rw [htext0]
  · simp only [hcons0, hname, hname2, hcons2, hpt1, htext3, hpt2, string_eta]

theorem operStr_shape (o : Oper) : ∃ d ds, operStr o = d :: ds ∧
    is_op_char d = true ∧ isUpperChar d = false ∧ isSpaceChar d = false := by
  cases o <;> exact ⟨_, _, rfl, by decide, by decide, by decide⟩

theorem parse_oper_print (o : Oper) (X : List Char) (M : Nat) :
    parse_oper ⟨operStr o ++ (' ' :: X), M⟩ =
      .ok (⟨' ' :: X, M + (operStr o).length⟩, o) := by
  cases o <;>
    simp [parse_oper, grammar, opAlt, text, skip, skipAux, stripPre, perr,
      isSpaceChar, operStr]

theorem parse_op2_print {pt : Parser Term} {s : PState} {o : Oper} {a b : Term}
    {l : List Char} {m : Nat}
    (hs : skip s = ⟨printT (Term.Op2 o a b) ++ l, m⟩)
    (hpa : ParsesPrint pt a) (hpb : ParsesPrint pt b)
    (hb : boundaryB l = true) :
    parse_op2 pt s =
      .ok (⟨l, m + (printT (Term.Op2 o a b)).length⟩, Term.Op2 o a b) := by
  obtain ⟨d, ds, hds, hop, hup, hsp⟩ := operStr_shape o
  have h2 : skip (skip s) = ⟨printT (Term.Op2 o a b) ++ l, m⟩ := by rw [skip_skip, hs]
  have hsplit : printT (Term.Op2 o a b) ++ l =
      '(' :: (operStr o ++ (' ' :: (printT a ++ (' ' :: (printT b ++ (')' :: l)))))) := by
    rw [printT]
    simp only [List.cons_append, List.append_assoc, List.nil_append]
  have h2' : skip (skip s) =
      ⟨'(' :: (operStr o ++ (' ' :: (printT a ++ (' ' :: (printT b ++ (')' :: l)))))), m⟩ := by
    rw [h2, hsplit]
  have h2'' : skip (skip s) =
      ⟨'(' :: (d :: (ds ++ (' ' :: (printT a ++ (' ' :: (printT b ++ (')' :: l))))))), m⟩ := by
    rw [h2', hds, List.cons_append]
  have htext0 : text "(" (skip s) =
      (⟨operStr o ++ (' ' :: (printT a ++ (' ' :: (printT b ++ (')' :: l))))), m + 1⟩,
        true) := by
    have := text_lparen_yes (c := d)
      (l := ds ++ (' ' :: (printT a ++ (' ' :: (printT b ++ (')' :: l)))))) h2''
    rw [this, hds, List.cons_append]
  have hget : get_char (⟨operStr o ++ (' ' :: (printT a ++ (' ' :: (printT b ++
      (')' :: l))))), m + 1⟩ : PState) =
      (⟨ds ++ (' ' :: (printT a ++ (' ' :: (printT b ++ (')' :: l))))), m + 2⟩, d) := by
    rw [hds, List.cons_append]
    exact get_char_at (skip_cons _ _ hsp)
  have hoper : parse_oper (⟨operStr o ++ (' ' :: (printT a ++ (' ' :: (printT b ++
      (')' :: l))))), m + 1⟩ : PState) =
      .ok (⟨' ' :: (printT a ++ (' ' :: (printT b ++ (')' :: l)))),
        m + 1 + (operStr o).length⟩, o) :=
    parse_oper_print o (printT a ++ (' ' :: (printT b ++ (')' :: l)))) (m + 1)
  have hpt1 : pt ⟨' ' :: (printT a ++ (' ' :: (printT b ++ (')' :: l)))),
      m + 1 + (operStr o).length⟩ =
      .ok (⟨' ' :: (printT b ++ (')' :: l)),
        m + 1 + (operStr o).length + 1 + (printT a).length⟩, a) :=
    hpa [' '] (' ' :: (printT b ++ (')' :: l))) (m + 1 + (operStr o).length)
      (by decide) (boundaryB_space _)
  have hpt2 : pt ⟨' ' :: (printT b ++ (')' :: l)),
      m + 1 + (operStr o).length + 1 + (printT a).length⟩ =
      .ok (⟨')' :: l,
        m + 1 + (operStr o).length + 1 + (printT a).length + 1 + (printT b).length⟩, b) :=
    hpb [' '] (')' :: l) (m + 1 + (operStr o).length + 1 + (printT a).length)
      (by decide) (boundaryB_rparen _)
  have htext4 : text ")" ⟨')' :: l,
      m + 1 + (operStr o).length + 1 + (printT a).length + 1 + (printT b).length⟩ =
      (⟨l, m + 1 + (operStr o).length + 1 + (printT a).length + 1 + (printT b).length + 1⟩,
        true) := by
    have hstrip : stripPre (")" : String).data (')' :: l) = some l := by
      rw [data_rparen]
      exact stripPre_refl [')'] _
    rw [text_yes (skip_cons _ _ (by decide)) hstrip, data_rparen]
    rfl
  have hlen : m + (printT (Term.Op2 o a b)).length =
      m + 1 + (operStr o).length + 1 + (printT a).length + 1 + (printT b).length + 1 := by
    rw [printT]
    simp only [List.cons_append, List.length_cons, List.length_append, List.length_nil]
    omega
  rw [parse_op2, hlen]
  refine pguard_some _ _ s
    ⟨ds ++ (' ' :: (printT a ++ (' ' :: (printT b ++ (')' :: l))))), m + 2⟩
    ⟨l, m + 1 + (operStr o).length + 1 + (printT a).length + 1 + (printT b).length + 1⟩
    (Term.Op2 o a b) ?_ ?_
  · simp only [htext0, hget, hop, Bool.true_and]
  · simp only [htext0, hoper, hpt1, hpt2, htext4]

theorem printArgs_cons (t : Term) (ts : List Term) :
    printArgs (t :: ts) = ' ' :: (printT t ++ printArgs ts) := by
  rw [printArgs, List.cons_append]

theorem printArgs_append : ∀ (xs ys : List Term),
    printArgs (xs ++ ys) = printArgs xs ++ printArgs ys := by
  intro xs
  induction xs with
  | nil => intro ys; simp [printArgs]
  | cons t ts ih =>
    intro ys
    rw [List.cons_append, printArgs_cons, printArgs_cons, ih, List.cons_append,
      List.append_assoc]

theorem printArgs_length_cons (t : Term) (ts : List Term) :
    (printArgs (t :: ts)).length = 1 + (printT t).length + (printArgs ts).length := by
  rw [printArgs_cons]
  simp only [List.length_cons, List.length_append]
  omega

theorem length_le_printArgs : ∀ (ts : List Term), ts.length ≤ (printArgs ts).length := by
  intro ts
  induction ts with
  | nil => simp [printArgs]
  | cons t ts ih =>
    rw [printArgs_length_cons]
    simp only [List.length_cons]
    omega

theorem boundary_args (rest : List Term) (l : List Char) :
    boundaryB (printArgs rest ++ (')' :: l)) = true := by
  cases rest with
  | nil => rw [printArgs]; exact boundaryB_rparen l
  | cons t ts =>
    rw [printArgs_cons, List.cons_append]
    exact boundaryB_space _

theorem stripPre_nil (input : List Char) : stripPre [] input = some input := rfl

theorem text_empty (s : PState) : text "" s = (skip s, true) := by
  rw [text, data_empty, stripPre_nil]
  rfl

theorem spineL_ne_nil : ∀ t : Term, spineL t ≠ [] := by
  intro t
  cases t <;> simp [spineL]

theorem tsize_pos : ∀ t : Term, 1 ≤ tsize t := by
  intro t
  cases t <;> rw [tsize] <;> omega

theorem spineL_foldl_aux : ∀ (N : Nat) (t : Term), tsize t ≤ N →
    ∀ e0 rest, spineL t = e0 :: rest → rest.foldl Term.App e0 = t := by
  intro N
  induction N with
  | zero =>
    intro t ht
    have := tsize_pos t
    omega
  | succ N ih =>
    intro t ht e0 rest h
    cases t with
    | App f a =>
      have h : spineL f ++ [a] = e0 :: rest := h
      obtain ⟨e0', rest', hf⟩ : ∃ e0' rest', spineL f = e0' :: rest' := by
        cases hsp : spineL f with
        | nil => exact absurd hsp (spineL_ne_nil f)
        | cons x xs => exact ⟨x, xs, rfl⟩
      rw [hf, List.cons_append] at h
      injection h with h1 h2
      subst h1
      subst h2
      rw [List.foldl_append]
      have hsz : tsize f ≤ N := by
        rw [tsize] at ht
        have := tsize_pos a
        omega
      rw [ih f hsz _ _ hf]
      rfl
    | Var n =>
      have h' : [Term.Var n] = e0 :: rest := h
      injection h' with h1 h2
      subst h1
      subst h2
      rfl
    | Dup a b e k =>
      have h' : [Term.Dup a b e k] = e0 :: rest := h
      injection h' with h1 h2
      subst h1
      subst h2
      rfl
    | Let n e k =>
      have h' : [Term.Let n e k] = e0 :: rest := h
      injection h' with h1 h2
      subst h1
      subst h2
      rfl
    | Lam n k =>
      have h' : [Term.Lam n k] = e0 :: rest := h
      injection h' with h1 h2
      subst h1
      subst h2
      rfl
    | Ctr n args =>
      have h' : [Term.Ctr n args] = e0 :: rest := h
      injection h' with h1 h2
      subst h1
      subst h2
      rfl
    | Num v =>
      have h' : [Term.Num v] = e0 :: rest := h
      injection h' with h1 h2
      subst h1
      subst h2
      rfl
    | Op2 o a b =>
      have h' : [Term.Op2 o a b] = e0 :: rest := h
      injection h' with h1 h2
      subst h1
      subst h2
      rfl

theorem spineL_foldl (t : Term) : ∀ e0 rest, spineL t = e0 :: rest →
    rest.foldl Term.App e0 = t :=
  spineL_foldl_aux (tsize t) t (Nat.le_refl _)

theorem appInner_join_aux : ∀ (N : Nat) (f : Term), tsize f ≤ N → ∀ a, ∃ e0 rest,
    spineL (Term.App f a) = e0 :: rest ∧
    appInner f a = printT e0 ++ printArgs rest := by
  intro N
  induction N with
  | zero =>
    intro f hf
    have := tsize_pos f
    omega
  | succ N ih =>
    intro f hf a
    cases f with
    | App f' a' =>
      have hsz : tsize f' ≤ N := by
        rw [tsize] at hf
        have := tsize_pos a'
        omega
      obtain ⟨e0, rest, hsp, hinner⟩ := ih f' hsz a'
      refine ⟨e0, rest ++ [a], ?_, ?_⟩
      · show spineL (Term.App f' a') ++ [a] = e0 :: (rest ++ [a])
        rw [hsp, List.cons_append]
      · rw [show appInner (Term.App f' a') a = appInner f' a' ++ ' ' :: printT a from by
          simp [appInner]]
        rw [hinner, printArgs_append, List.append_assoc]
        rw [show printArgs [a] = ' ' :: (printT a ++ []) from by
          rw [printArgs_cons, printArgs]]
        rw [List.append_nil]
    | Var n =>
      refine ⟨Term.Var n, [a], rfl, ?_⟩
      rw [show appInner (Term.Var n) a = printT (Term.Var n) ++ ' ' :: printT a from by
        simp [appInner]]
      rw [printArgs_cons, printArgs, List.append_nil]
    | Dup x y e k =>
      refine ⟨Term.Dup x y e k, [a], rfl, ?_⟩
      rw [show appInner (Term.Dup x y e k) a = printT (Term.Dup x y e k) ++ ' ' :: printT a from by
        simp [appInner]]
      rw [printArgs_cons, printArgs, List.append_nil]
    | Let n e k =>
      refine ⟨Term.Let n e k, [a], rfl, ?_⟩
      rw [show appInner (Term.Let n e k) a = printT (Term.Let n e k) ++ ' ' :: printT a from by
        simp [appInner]]
      rw [printArgs_cons, printArgs, List.append_nil]
    | Lam n k =>
      refine ⟨Term.Lam n k, [a], rfl, ?_⟩
      rw [show appInner (Term.Lam n k) a = printT (Term.Lam n k) ++ ' ' :: printT a from by
        simp [appInner]]
      rw [printArgs_cons, printArgs, List.append_nil]
    | Ctr n args =>
      refine ⟨Term.Ctr n args, [a], rfl, ?_⟩
      rw [show appInner (Term.Ctr n args) a = printT (Term.Ctr n args) ++ ' ' :: printT a from by
        simp [appInner]]
      rw [printArgs_cons, printArgs, List.append_nil]
    | Num v =>
      refine ⟨Term.Num v, [a], rfl, ?_⟩
      rw [show appInner (Term.Num v) a = printT (Term.Num v) ++ ' ' :: printT a from by
        simp [appInner]]
      rw [printArgs_cons, printArgs, List.append_nil]
    | Op2 o x y =>
      refine ⟨Term.Op2 o x y, [a], rfl, ?_⟩
      rw [show appInner (Term.Op2 o x y) a = printT (Term.Op2 o x y) ++ ' ' :: printT a from by
        simp [appInner]]
      rw [printArgs_cons, printArgs, List.append_nil]

theorem appInner_join (f a : Term) : ∃ e0 rest,
    spineL (Term.App f a) = e0 :: rest ∧
    appInner f a = printT e0 ++ printArgs rest :=
  appInner_join_aux (tsize f) f (Nat.le_refl _) a

theorem untilRT (pt : Parser Term) :
    ∀ (es : List Term) (K : Nat) (l : List Char) (off : Nat),
    es.length + 1 ≤ K →
    (∀ e ∈ es, ParsesPrint pt e) →
    (∀ e ∈ es, ∃ c cs, printT e = c :: cs ∧ goodHeadB c = true) →
    boundaryB l = true →
    puntilAux (fun x => .ok (text ")" x)) pt K ⟨printArgs es ++ (')' :: l), off⟩ =
      .ok (⟨l, off + (printArgs es).length + 1⟩, es) := by
  intro es
  induction es with
  | nil =>
    intro K l off hK hpp hsh hb
    cases K with
    | zero => omega
    | succ K =>
      have hstate : printArgs ([] : List Term) ++ (')' :: l) = ')' :: l := by
        rw [printArgs]
        exact List.nil_append _
      have hlen0 : (printArgs ([] : List Term)).length = 0 := by rw [printArgs]; rfl
      rw [hstate, hlen0]
      have hdelim : text ")" (⟨')' :: l, off⟩ : PState) = (⟨l, off + 1⟩, true) := by
        have hstrip : stripPre (")" : String).data (')' :: l) = some l := by
          rw [data_rparen]
          exact stripPre_refl [')'] _
        rw [text_yes (skip_cons _ _ (by decide)) hstrip, data_rparen]
        rfl
      rw [puntilAux]
      simp only [hdelim]
  | cons e rest ih =>
    intro K l off hK hpp hsh hb
    obtain ⟨c, cs, hpr, hgh⟩ := hsh e (by simp)
    cases K with
    | zero =>
      rw [List.length_cons] at hK
      omega
    | succ K =>
      have hKr : rest.length + 1 ≤ K := by
        rw [List.length_cons] at hK
        omega
      have hstate : printArgs (e :: rest) ++ (')' :: l) =
          ' ' :: (printT e ++ (printArgs rest ++ (')' :: l))) := by
        rw [printArgs_cons, List.cons_append, List.append_assoc]
      rw [hstate]
      have hskipS : skip ⟨' ' :: (printT e ++ (printArgs rest ++ (')' :: l))), off⟩ =
          ⟨c :: (cs ++ (printArgs rest ++ (')' :: l))), off + 1⟩ := by
        rw [hpr, List.cons_append]
        exact skip_space1 _ _ (goodHead_not_space hgh)
      have hdelim : text ")" ⟨' ' :: (printT e ++ (printArgs rest ++ (')' :: l))), off⟩ =
          (⟨' ' :: (printT e ++ (printArgs rest ++ (')' :: l))), off⟩, false) :=
        text_no hskipS (by
          rw [data_rparen]
          exact stripPre_ne _ _ (goodHead_ne hgh (by decide)))
      have helem : pt ⟨' ' :: (printT e ++ (printArgs rest ++ (')' :: l))), off⟩ =
          .ok (⟨printArgs rest ++ (')' :: l), off + 1 + (printT e).length⟩, e) :=
        hpp e (by simp) [' '] (printArgs rest ++ (')' :: l)) off (by decide)
          (boundary_args rest l)
      have hrec := ih K l (off + 1 + (printT e).length) hKr
        (fun e' he' => hpp e' (by simp [he']))
        (fun e' he' => hsh e' (by simp [he'])) hb
      rw [puntilAux]
      simp only [hdelim, helem, hrec]
      have hAB : off + 1 + (printT e).length + (printArgs rest).length + 1 =
          off + (printArgs (e :: rest)).length + 1 := by
        rw [printArgs_length_cons]
        omega
      rw [hAB]

theorem parse_ctr_print {pt : Parser Term} {s : PState} {nm : String}
    {args : List Term} {l : List Char} {m : Nat}
    (hs : skip s = ⟨printT (Term.Ctr nm args) ++ l, m⟩)
    (hn : validCtrName nm = true)
    (hpp : ∀ e ∈ args, ParsesPrint pt e)
    (hsh : ∀ e ∈ args, ∃ c cs, printT e = c :: cs ∧ goodHeadB c = true)
    (hb : boundaryB l = true) :
    parse_ctr pt s =
      .ok (⟨l, m + (printT (Term.Ctr nm args)).length⟩, Term.Ctr nm args) := by
  obtain ⟨c, cs, hd, hup, hall, _, _, _, _⟩ := validCtrName_spec hn
  have h2 : skip (skip s) = ⟨printT (Term.Ctr nm args) ++ l, m⟩ := by rw [skip_skip, hs]
  have hsplit : printT (Term.Ctr nm args) ++ l =
      '(' :: (nm.data ++ (printArgs args ++ (')' :: l))) := by
    rw [printT_ctr_plain hn]
    simp only [List.cons_append, List.append_assoc, List.nil_append]
  have h2' : skip (skip s) = ⟨'(' :: (nm.data ++ (printArgs args ++ (')' :: l))), m⟩ := by
    rw [h2, hsplit]
  have h2'' : skip (skip s) =
      ⟨'(' :: (c :: (cs ++ (printArgs args ++ (')' :: l)))), m⟩ := by
    rw [h2', hd, List.cons_append]
  have htext1 : text "(" (skip s) =
      (⟨nm.data ++ (printArgs args ++ (')' :: l)), m + 1⟩, true) := by
    have := text_lparen_yes h2''
    rw [this, hd, List.cons_append]
  have hget : get_char (⟨nm.data ++ (printArgs args ++ (')' :: l)), m + 1⟩ : PState) =
      (⟨cs ++ (printArgs args ++ (')' :: l)), m + 2⟩, c) := by
    rw [hd, List.cons_append]
    refine get_char_at (skip_cons _ _ (nameChar_not_space ?_))
    rw [List.all_cons, Bool.and_eq_true] at hall
    exact hall.1
  have hskip1 : skip ⟨nm.data ++ (printArgs args ++ (')' :: l)), m + 1⟩ =
      ⟨nm.data ++ (printArgs args ++ (')' :: l)), m + 1⟩ := by
    rw [hd, List.cons_append]
    refine skip_cons _ _ (nameChar_not_space ?_)
    rw [List.all_cons, Bool.and_eq_true] at hall
    exact hall.1
  have hname : name1 ⟨nm.data ++ (printArgs args ++ (')' :: l)), m + 1⟩ =
      .ok (⟨printArgs args ++ (')' :: l), m + 1 + nm.data.length⟩, ⟨nm.data⟩) :=
    name1_yes hskip1 (by rw [hd]; exact hall) (by rw [hd]; rfl)
      (boundary_notNameHead (boundary_args args l))
  have hK : args.length + 1 ≤ (printArgs args ++ (')' :: l)).length + 1 := by
    have h1 := length_le_printArgs args
    have h2 : (printArgs args ++ (')' :: l)).length =
        (printArgs args).length + (l.length + 1) := by
      rw [List.length_append, List.length_cons]
    omega
  have huntil : puntil (fun x => .ok (text ")" x)) pt
      ⟨printArgs args ++ (')' :: l), m + 1 + nm.data.length⟩ =
      .ok (⟨l, m + 1 + nm.data.length + (printArgs args).length + 1⟩, args) := by
    rw [puntil]
    exact untilRT pt args _ l (m + 1 + nm.data.length) hK hpp hsh hb
  have hlen : m + (printT (Term.Ctr nm args)).length =
      m + 1 + nm.data.length + (printArgs args).length + 1 := by
    rw [printT_ctr_plain hn]
    simp only [List.cons_append, List.length_cons, List.length_append, List.length_nil]
    omega
  rw [parse_ctr, hlen]
  refine pguard_some _ _ s ⟨cs ++ (printArgs args ++ (')' :: l)), m + 2⟩
    ⟨l, m + 1 + nm.data.length + (printArgs args).length + 1⟩
    (Term.Ctr nm args) ?_ ?_
  · simp only [htext1, hget, hup]
  · simp only [htext1, hname, huntil, string_eta, eq_self_iff_true, if_true]

theorem plistRT (pt : Parser Term) :
    ∀ (es : List Term) (K : Nat) (l : List Char) (off : Nat),
    es.length + 1 ≤ K →
    (∀ e ∈ es, ParsesPrint pt e) →
    (∀ e ∈ es, ∃ c cs, printT e = c :: cs ∧ goodHeadB c = true) →
    boundaryB l = true →
    plistAux (fun x => .ok (text ")" x)) pt (fun x => .ok (text "" x)) K
      ⟨(match es with
        | [] => (')' :: l)
        | e :: rest => printT e ++ (printArgs rest ++ (')' :: l))), off⟩ =
      .ok (⟨l, off + (match es with
        | [] => 0
        | e :: rest => (printT e).length + (printArgs rest).length) + 1⟩, es) := by
  intro es
  induction es with
  | nil =>
    intro K l off hK hpp hsh hb
    cases K with
    | zero => omega
    | succ K =>
      show plistAux _ _ _ (K + 1) ⟨')' :: l, off⟩ = .ok (⟨l, off + 0 + 1⟩, [])
      have hdelim : text ")" (⟨')' :: l, off⟩ : PState) = (⟨l, off + 1⟩, true) := by
        have hstrip : stripPre (")" : String).data (')' :: l) = some l := by
          rw [data_rparen]
          exact stripPre_refl [')'] _
        rw [text_yes (skip_cons _ _ (by decide)) hstrip, data_rparen]
        rfl
      rw [plistAux]
      simp only [hdelim]
  | cons e rest ih =>
    intro K l off hK hpp hsh hb
    obtain ⟨c, cs, hpr, hgh⟩ := hsh e (by simp)
    cases K with
    | zero =>
      rw [List.length_cons] at hK
      omega
    | succ K =>
      have hKr : rest.length + 1 ≤ K := by
        rw [List.length_cons] at hK
        omega
      show plistAux _ _ _ (K + 1)
        ⟨printT e ++ (printArgs rest ++ (')' :: l)), off⟩ =
        .ok (⟨l, off + ((printT e).length + (printArgs rest).length) + 1⟩, e :: rest)
      have hskipS : skip ⟨printT e ++ (printArgs rest ++ (')' :: l)), off⟩ =
          ⟨printT e ++ (printArgs rest ++ (')' :: l)), off⟩ := by
        rw [hpr, List.cons_append]
        exact skip_cons _ _ (goodHead_not_space hgh)
      have hdelim : text ")" ⟨printT e ++ (printArgs rest ++ (')' :: l)), off⟩ =
          (⟨printT e ++ (printArgs rest ++ (')' :: l)), off⟩, false) := by
        refine text_no hskipS ?_
        rw [data_rparen, hpr, List.cons_append]
        exact stripPre_ne _ _ (goodHead_ne hgh (by decide))
      have helem : pt ⟨printT e ++ (printArgs rest ++ (')' :: l)), off⟩ =
          .ok (⟨printArgs rest ++ (')' :: l), off + 0 + (printT e).length⟩, e) :=
        hpp e (by simp) [] (printArgs rest ++ (')' :: l)) off (by decide)
          (boundary_args rest l)
      cases rest with
      | nil =>
        have hsep : text "" (⟨printArgs ([] : List Term) ++ (')' :: l),
            off + 0 + (printT e).length⟩ : PState) =
            (⟨printArgs ([] : List Term) ++ (')' :: l), off + 0 + (printT e).length⟩,
              true) := by
          rw [text_empty]
          rw [show printArgs ([] : List Term) ++ (')' :: l) = ')' :: l from by
            rw [printArgs]; exact List.nil_append _]
          rw [skip_cons _ _ (by decide)]
        have hrec := ih K l (off + 0 + (printT e).length) hKr
          (fun e' he' => absurd he' (by simp))
          (fun e' he' => absurd he' (by simp)) hb
        rw [show printArgs ([] : List Term) ++ (')' :: l) = ')' :: l from by
          rw [printArgs]; exact List.nil_append _] at hdelim helem hsep ⊢
        rw [plistAux]
        simp only [hdelim, helem, hsep, hrec]
        have hAB : off + 0 + (printT e).length + 0 + 1 =
            off + ((printT e).length + (printArgs ([] : List Term)).length) + 1 := by
          rw [printArgs]
          simp only [List.length_nil]
          omega
        rw [hAB]
      | cons e2 rest2 =>
        obtain ⟨c2, cs2, hpr2, hgh2⟩ := hsh e2 (by simp)
        have hsplit2 : printArgs (e2 :: rest2) ++ (')' :: l) =
            ' ' :: (printT e2 ++ (printArgs rest2 ++ (')' :: l))) := by
          rw [printArgs_cons, List.cons_append, List.append_assoc]
        have hsep : text "" (⟨printArgs (e2 :: rest2) ++ (')' :: l),
            off + 0 + (printT e).length⟩ : PState) =
            (⟨printT e2 ++ (printArgs rest2 ++ (')' :: l)),
              off + 0 + (printT e).length + 1⟩, true) := by
          rw [text_empty, hsplit2]
          rw [show skip ⟨' ' :: (printT e2 ++ (printArgs rest2 ++ (')' :: l))),
              off + 0 + (printT e).length⟩ =
              ⟨printT e2 ++ (printArgs rest2 ++ (')' :: l)),
                off + 0 + (printT e).length + 1⟩ from by
            rw [hpr2, List.cons_append]
            exact skip_space1 _ _ (goodHead_not_space hgh2)]
        have hrec := ih K l (off + 0 + (printT e).length + 1) hKr
          (fun e' he' => hpp e' (by simp [he']))
          (fun e' he' => hsh e' (by simp [he'])) hb
        rw [plistAux]
        simp only [hdelim, helem, hsep, hrec]
        have hAB : off + 0 + (printT e).length + 1 +
            ((printT e2).length + (printArgs rest2).length) + 1 =
            off + ((printT e).length + (printArgs (e2 :: rest2)).length) + 1 := by
          rw [printArgs_length_cons]
          omega
        rw [hAB]

theorem parse_app_print {pt : Parser Term} {s : PState} {f a : Term}
    {l : List Char} {m : Nat}
    (hs : skip s = ⟨printT (Term.App f a) ++ l, m⟩)
    (hpp : ∀ e ∈ spineL (Term.App f a), ParsesPrint pt e)
    (hsh : ∀ e ∈ spineL (Term.App f a), ∃ c cs, printT e = c :: cs ∧ goodHeadB c = true)
    (hb : boundaryB l = true) :
    parse_app pt s =
      .ok (⟨l, m + (printT (Term.App f a)).length⟩, Term.App f a) := by
  obtain ⟨e0, rest, hsp, hinner⟩ := appInner_join f a
  obtain ⟨c0, cs0, hpr0, hgh0⟩ := hsh e0 (by rw [hsp]; simp)
  have h2 : skip (skip s) = ⟨printT (Term.App f a) ++ l, m⟩ := by rw [skip_skip, hs]
  have hsplit : printT (Term.App f a) ++ l =
      '(' :: (printT e0 ++ (printArgs rest ++ (')' :: l))) := by
    rw [printT, hinner]
    simp only [List.cons_append, List.append_assoc, List.nil_append]
  have h2' : skip (skip s) =
      ⟨'(' :: (printT e0 ++ (printArgs rest ++ (')' :: l))), m⟩ := by
    rw [h2, hsplit]
  have h2'' : skip (skip s) =
      ⟨'(' :: (c0 :: (cs0 ++ (printArgs rest ++ (')' :: l)))), m⟩ := by
    rw [h2', hpr0, List.cons_append]
  have htext1 : text "(" (skip s) =
      (⟨printT e0 ++ (printArgs rest ++ (')' :: l)), m + 1⟩, true) := by
    have := text_lparen_yes h2''
    rw [this, hpr0, List.cons_append]
  have hK : (e0 :: rest).length + 1 ≤
      (printT e0 ++ (printArgs rest ++ (')' :: l))).length + 1 := by
    have h1 := length_le_printArgs rest
    have hlen2 : (printT e0 ++ (printArgs rest ++ (')' :: l))).length =
        (printT e0).length + ((printArgs rest).length + (l.length + 1)) := by
      rw [List.length_append, List.length_append, List.length_cons]
    have h3 : 1 ≤ (printT e0).length := by rw [hpr0]; simp
    rw [List.length_cons]
    omega
  have hloop := plistRT pt (e0 :: rest)
    ((printT e0 ++ (printArgs rest ++ (')' :: l))).length + 1) l (m + 1) hK
    (fun e' he' => hpp e' (by rw [hsp]; exact he'))
    (fun e' he' => hsh e' (by rw [hsp]; exact he')) hb
  have hfold : rest.foldl Term.App e0 = Term.App f a := spineL_foldl _ e0 rest hsp
  have hlen : m + (printT (Term.App f a)).length =
      m + 1 + ((printT e0).length + (printArgs rest).length) + 1 := by
    rw [printT, hinner]
    simp only [List.length_cons, List.length_append, List.length_nil]
    omega
  rw [parse_app, hlen]
  refine pguard_some _ _ s ⟨printT e0 ++ (printArgs rest ++ (')' :: l)), m + 1⟩
    ⟨l, m + 1 + ((printT e0).length + (printArgs rest).length) + 1⟩
    (Term.App f a) ?_ ?_
  · show Except.ok (text "(" (skip s)) = _
    rw [htext1]
  · rw [plist]
    simp only [htext1, hloop, hfold]

-- ==========================================================================
-- Subterm measure and well-formedness lemmas
-- ==========================================================================

theorem mem_lsize : ∀ (ts : List Term) (e : Term), e ∈ ts → tsize e ≤ lsize ts := by
  intro ts
  induction ts with
  | nil => intro e he; exact absurd he (by simp)
  | cons t ts ih =>
    intro e he
    rw [lsize]
    rcases List.mem_cons.mp he with h | h
    · subst h; omega
    · have := ih e h; omega

theorem mem_needL : ∀ (ts : List Term) (e : Term), e ∈ ts → need e ≤ needL ts := by
  intro ts
  induction ts with
  | nil => intro e he; exact absurd he (by simp)
  | cons t ts ih =>
    intro e he
    rw [needL]
    rcases List.mem_cons.mp he with h | h
    · subst h; exact Nat.le_max_left _ _
    · exact Nat.le_trans (ih e h) (Nat.le_max_right _ _)

theorem wfL_mem : ∀ (ts : List Term) (e : Term), wfL ts = true → e ∈ ts → wfT e = true := by
  intro ts
  induction ts with
  | nil => intro e _ he; exact absurd he (by simp)
  | cons t ts ih =>
    intro e hw he
    rw [wfL, Bool.and_eq_true] at hw
    rcases List.mem_cons.mp he with h | h
    · subst h; exact hw.1
    · exact ih e hw.2 h

theorem need_pos : ∀ t : Term, 1 ≤ need t := by
  intro t
  cases t <;> rw [need] <;> omega


theorem spine_tsize_le : ∀ (N : Nat) (t : Term), tsize t ≤ N →
    ∀ e ∈ spineL t, tsize e ≤ tsize t := by
  intro N
  induction N with
  | zero =>
    intro t ht
    have := tsize_pos t
    omega
  | succ N ih =>
    intro t ht e he
    cases t with
    | App f a =>
      have he' : e ∈ spineL f ++ [a] := he
      have hts : tsize (Term.App f a) = 1 + tsize f + tsize a := by rw [tsize]
      rcases List.mem_append.mp he' with h | h
      · have hf : tsize f ≤ N := by have := tsize_pos a; omega
        have := ih f hf e h
        omega
      · have heq : e = a := by simpa using h
        subst heq
        omega
    | Var n =>
      have heq : e = Term.Var n := by simpa [spineL] using he
      subst heq
      exact Nat.le_refl _
    | Dup a b x y =>
      have heq : e = Term.Dup a b x y := by simpa [spineL] using he
      subst heq
      exact Nat.le_refl _
    | Let n x y =>
      have heq : e = Term.Let n x y := by simpa [spineL] using he
      subst heq
      exact Nat.le_refl _
    | Lam n x =>
      have heq : e = Term.Lam n x := by simpa [spineL] using he
      subst heq
      exact Nat.le_refl _
    | Ctr n args =>
      have heq : e = Term.Ctr n args := by simpa [spineL] using he
      subst heq
      exact Nat.le_refl _
    | Num v =>
      have heq : e = Term.Num v := by simpa [spineL] using he
      subst heq
      exact Nat.le_refl _
    | Op2 o x y =>
      have heq : e = Term.Op2 o x y := by simpa [spineL] using he
      subst heq
      exact Nat.le_refl _

theorem spine_need_le : ∀ (N : Nat) (t : Term), tsize t ≤ N →
    ∀ e ∈ spineL t, need e ≤ need t := by
  intro N
  induction N with
  | zero =>
    intro t ht
    have := tsize_pos t
    omega
  | succ N ih =>
    intro t ht e he
    cases t with
    | App f a =>
      have he' : e ∈ spineL f ++ [a] := he
      have hne : need (Term.App f a) = 1 + Nat.max (need f) (need a) := by rw [need]
      have hts : tsize (Term.App f a) = 1 + tsize f + tsize a := by rw [tsize]
      rcases List.mem_append.mp he' with h | h
      · have hf : tsize f ≤ N := by have := tsize_pos a; omega
        have hef := ih f hf e h
        have hstep : need f ≤ need (Term.App f a) :=
          le_of_le_of_eq (le_trans (Nat.le_max_left (need f) (need a))
            (Nat.le_add_left _ 1)) hne.symm
        exact le_trans hef hstep
      · have heq : e = a := by simpa using h
        rw [heq]
        exact le_of_le_of_eq (le_trans (Nat.le_max_right (need f) (need a))
          (Nat.le_add_left _ 1)) hne.symm
    | Var n =>
      have heq : e = Term.Var n := by simpa [spineL] using he
      subst heq
      exact Nat.le_refl _
    | Dup a b x y =>
      have heq : e = Term.Dup a b x y := by simpa [spineL] using he
      subst heq
      exact Nat.le_refl _
    | Let n x y =>
      have heq : e = Term.Let n x y := by simpa [spineL] using he
      subst heq
      exact Nat.le_refl _
    | Lam n x =>
      have heq : e = Term.Lam n x := by simpa [spineL] using he
      subst heq
      exact Nat.le_refl _
    | Ctr n args =>
      have heq : e = Term.Ctr n args := by simpa [spineL] using he
      subst heq
      exact Nat.le_refl _
    | Num v =>
      have heq : e = Term.Num v := by simpa [spineL] using he
      subst heq
      exact Nat.le_refl _
    | Op2 o x y =>
      have heq : e = Term.Op2 o x y := by simpa [spineL] using he
      subst heq
      exact Nat.le_refl _

theorem spine_wf : ∀ (N : Nat) (t : Term), tsize t ≤ N → wfT t = true →
    ∀ e ∈ spineL t, wfT e = true := by
  intro N
  induction N with
  | zero =>
    intro t ht
    have := tsize_pos t
    exact absurd ht (by omega)
  | succ N ih =>
    intro t ht hw e he
    cases t with
    | App f a =>
      have he' : e ∈ spineL f ++ [a] := he
      rw [wfT, Bool.and_eq_true] at hw
      have hts : tsize (Term.App f a) = 1 + tsize f + tsize a := by rw [tsize]
      rcases List.mem_append.mp he' with h | h
      · have hf : tsize f ≤ N := by have := tsize_pos a; omega
        exact ih f hf hw.1 e h
      · have heq : e = a := by simpa using h
        subst heq
        exact hw.2
    | Var n =>
      have heq : e = Term.Var n := by simpa [spineL] using he
      subst heq
      exact hw
    | Dup a b x y =>
      have heq : e = Term.Dup a b x y := by simpa [spineL] using he
      subst heq
      exact hw
    | Let n x y =>
      have heq : e = Term.Let n x y := by simpa [spineL] using he
      subst heq
      exact hw
    | Lam n x =>
      have heq : e = Term.Lam n x := by simpa [spineL] using he
      subst heq
      exact hw
    | Ctr n args =>
      have heq : e = Term.Ctr n args := by simpa [spineL] using he
      subst heq
      exact hw
    | Num v =>
      have heq : e = Term.Num v := by simpa [spineL] using he
      subst heq
      exact hw
    | Op2 o x y =>
      have heq : e = Term.Op2 o x y := by simpa [spineL] using he
      subst heq
      exact hw

-- ==========================================================================
-- Keyword rejection for identifiers: a name followed by a boundary never
-- matches a keyword-plus-space literal unless it IS the keyword
-- ==========================================================================

theorem stripPre_word_space : ∀ (k n l : List Char), k.all isNameChar = true →
    n.all isNameChar = true → boundaryB l = true → n ≠ k →
    stripPre (k ++ [' ']) (n ++ l) = none := by
  intro k
  induction k with
  | nil =>
    intro n l _ hn hb hne
    cases n with
    | nil => exact absurd rfl hne
    | cons c cs =>
      have hc : isNameChar c = true := by
        simp only [List.all_cons, Bool.and_eq_true] at hn
        exact hn.1
      simp only [List.nil_append, List.cons_append]
      exact stripPre_ne _ _ (class_ne hc (by decide))
  | cons kc ks ih =>
    intro n l hk hn hb hne
    have hk' : isNameChar kc = true ∧ ks.all isNameChar = true := by
      simpa only [List.all_cons, Bool.and_eq_true] using hk
    cases n with
    | nil =>
      simp only [List.nil_append, List.cons_append]
      cases l with
      | nil => rfl
      | cons c cs =>
        exact stripPre_ne _ _ (nameChar_ne_boundary hk'.1 (boundary_head_cases hb))
    | cons c cs =>
      have hn' : isNameChar c = true ∧ cs.all isNameChar = true := by
        simpa only [List.all_cons, Bool.and_eq_true] using hn
      simp only [List.cons_append]
      by_cases hkc : kc = c
      · subst hkc
        rw [show stripPre (kc :: (ks ++ [' '])) (kc :: (cs ++ l)) =
            stripPre (ks ++ [' ']) (cs ++ l) by simp [stripPre]]
        exact ih cs l hk'.2 hn'.2 hb (fun he => hne (by rw [he]))
      · exact stripPre_ne _ _ hkc

theorem parse_let_reject_word {pt : Parser Term} {s : PState} {n : String}
    {l : List Char} {m : Nat} (hs : skip s = ⟨n.data ++ l, m⟩)
    (hall : n.data.all isNameChar = true) (hne : n ≠ "let")
    (hb : boundaryB l = true) :
    parse_let pt s = .ok (s, none) := by
  have h2 : skip (skip s) = ⟨n.data ++ l, m⟩ := by rw [skip_skip, hs]
  have hne' : n.data ≠ ['l', 'e', 't'] := by
    intro he
    exact hne (by rw [← string_eta n, he])
  have hstrip : stripPre ("let " : String).data (n.data ++ l) = none := by
    rw [data_let]
    exact stripPre_word_space ['l', 'e', 't'] n.data l (by decide) hall hb hne'
  rw [parse_let]
  exact pguard_none _ _ s (skip s) (by simp only [text_no h2 hstrip])

theorem parse_dup_reject_word {pt : Parser Term} {s : PState} {n : String}
    {l : List Char} {m : Nat} (hs : skip s = ⟨n.data ++ l, m⟩)
    (hall : n.data.all isNameChar = true) (hne : n ≠ "dup")
    (hb : boundaryB l = true) :
    parse_dup pt s = .ok (s, none) := by
  have h2 : skip (skip s) = ⟨n.data ++ l, m⟩ := by rw [skip_skip, hs]
  have hne' : n.data ≠ ['d', 'u', 'p'] := by
    intro he
    exact hne (by rw [← string_eta n, he])
  have hstrip : stripPre ("dup " : String).data (n.data ++ l) = none := by
    rw [data_dup]
    exact stripPre_word_space ['d', 'u', 'p'] n.data l (by decide) hall hb hne'
  rw [parse_dup]
  exact pguard_none _ _ s (skip s) (by simp only [text_no h2 hstrip])

-- ==========================================================================
-- Facts about variable head characters
-- ==========================================================================

theorem varHead_facts {c : Char} (h : isLowerChar c = true ∨ c.toNat = 95) :
    'λ' ≠ c ∧ '@' ≠ c ∧ '(' ≠ c ∧ isUpperChar c = false ∧
    isDigitChar c = false ∧ isSpaceChar c = false ∧
    c ≠ Char.ofNat 39 ∧ c ≠ '"' ∧ c ≠ Char.ofNat 96 ∧ c ≠ '[' := by
  have hn : 97 ≤ c.toNat ∧ c.toNat ≤ 122 ∨ c.toNat = 95 := by
    rcases h with h | h
    · left
      simpa only [isLowerChar, Bool.and_eq_true, decide_eq_true_eq] using h
    · right
      exact h
  refine ⟨?_, ?_, ?_, ?_, ?_, ?_, ?_, ?_, ?_, ?_⟩
  · intro he; rw [← he] at hn; revert hn; decide
  · intro he; rw [← he] at hn; revert hn; decide
  · intro he; rw [← he] at hn; revert hn; decide
  · rw [Bool.eq_false_iff]
    intro hu
    simp only [isUpperChar, Bool.and_eq_true, decide_eq_true_eq] at hu
    omega
  · rw [Bool.eq_false_iff]
    intro hu
    simp only [isDigitChar, Bool.and_eq_true, decide_eq_true_eq] at hu
    omega
  · rw [Bool.eq_false_iff]
    intro hu
    simp only [isSpaceChar, Bool.or_eq_true, decide_eq_true_eq] at hu
    omega
  · intro he; rw [he] at hn; revert hn; decide
  · intro he; rw [he] at hn; revert hn; decide
  · intro he; rw [he] at hn; revert hn; decide
  · intro he; rw [he] at hn; revert hn; decide

-- ==========================================================================
-- Main round-trip lemma: the term grammar recovers every well-formed term
-- from its printed form, given enough fuel
-- ==========================================================================

theorem parse_term_print_main : ∀ (N : Nat) (t : Term), tsize t ≤ N →
    wfT t = true → ∀ F, need t ≤ F → ParsesPrint (parse_term F) t := by
  intro N
  induction N with
  | zero =>
    intro t ht
    have := tsize_pos t
    exact absurd ht (by omega)
  | succ N ih =>
    intro t ht hw F hF
    obtain ⟨F2, rfl⟩ : ∃ F2, F = F2 + 1 := ⟨F - 1, by have := need_pos t; omega⟩
    intro ws l off hws hb
    cases t with
    | Var n =>
      rw [wfT] at hw
      obtain ⟨c, cs, hd, hhead, hallc, hnl, hnd⟩ := validVarName_spec hw
      obtain ⟨hlam, hat, hpar, hup, hdig, hsp, hchr, hdq, hbq, hlb⟩ := varHead_facts hhead
      have hpr : printT (Term.Var n) = n.data := by rw [printT]
      rw [hpr]
      have hsplit : n.data ++ l = c :: (cs ++ l) := by
        rw [hd]
        simp only [List.cons_append]
      have hsk : skip ⟨ws ++ (n.data ++ l), off⟩ = ⟨n.data ++ l, off + ws.length⟩ := by
        rw [hsplit]
        exact skip_spaces_cons _ off hws hsp
      have hskc : skip ⟨ws ++ (n.data ++ l), off⟩ = ⟨c :: (cs ++ l), off + ws.length⟩ := by
        rw [hsk, hsplit]
      have hall : n.data.all isNameChar = true := by rw [hd]; exact hallc
      rw [parse_term, termAlts]
      rw [grammar_step_none (parse_let_reject_word hsk hall hnl hb)]
      rw [grammar_step_none (parse_dup_reject_word hsk hall hnd hb)]
      rw [grammar_step_none (parse_lam_reject hskc hlam hat)]
      rw [grammar_step_none (parse_ctr_reject_noparen hskc hpar hup)]
      rw [grammar_step_none (parse_op2_reject_noparen hskc hpar)]
      rw [grammar_step_none (parse_app_reject hskc hpar)]
      rw [grammar_step_none (parse_u60_reject hskc hdig)]
      rw [grammar_step_none (parse_chr_reject hskc hchr)]
      rw [grammar_step_none (parse_str_reject hskc hdq hbq)]
      rw [grammar_step_none (parse_lst_reject hskc hlb)]
      rw [grammar_step_some (parse_var_print hsk hw hb)]
    | Num v =>
      rw [wfT, decide_eq_true_eq] at hw
      obtain ⟨c, cs, hrepr, hdig, hall⟩ := natRepr_shape v
      have hgh : goodHeadB c = true := by simp [goodHeadB, hdig]
      have hpr : printT (Term.Num v) = natRepr v := by rw [printT]
      rw [hpr]
      have hsplit : natRepr v ++ l = c :: (cs ++ l) := by
        rw [hrepr]
        simp only [List.cons_append]
      have hsk : skip ⟨ws ++ (natRepr v ++ l), off⟩ = ⟨natRepr v ++ l, off + ws.length⟩ := by
        rw [hsplit]
        exact skip_spaces_cons _ off hws (goodHead_not_space hgh)
      have hskc : skip ⟨ws ++ (natRepr v ++ l), off⟩ = ⟨c :: (cs ++ l), off + ws.length⟩ := by
        rw [hsk, hsplit]
      rw [parse_term, termAlts]
      rw [grammar_step_none (parse_let_reject hskc (class_ne hdig (by decide)))]
      rw [grammar_step_none (parse_dup_reject hskc (class_ne hdig (by decide)))]
      rw [grammar_step_none (parse_lam_reject hskc (class_ne hdig (by decide))
        (class_ne hdig (by decide)))]
      rw [grammar_step_none (parse_ctr_reject_noparen hskc (class_ne hdig (by decide))
        (goodHead_not_upper hgh))]
      rw [grammar_step_none (parse_op2_reject_noparen hskc (class_ne hdig (by decide)))]
      rw [grammar_step_none (parse_app_reject hskc (class_ne hdig (by decide)))]
      rw [grammar_step_some (parse_u60_print hsk hw hb)]
    | Lam nm k =>
      rw [wfT, Bool.and_eq_true] at hw
      have htk : tsize k ≤ N := by rw [tsize] at ht; omega
      have hFk : need k ≤ F2 := by rw [need] at hF; omega
      have hpk := ih k htk hw.2 F2 hFk
      have hsplit : printT (Term.Lam nm k) ++ l =
          'λ' :: (nm.data ++ (' ' :: (printT k ++ l))) := by
        rw [printT]
        simp only [List.cons_append, List.append_assoc]
      have hsk : skip ⟨ws ++ (printT (Term.Lam nm k) ++ l), off⟩ =
          ⟨printT (Term.Lam nm k) ++ l, off + ws.length⟩ := by
        rw [hsplit]
        exact skip_spaces_cons _ off hws (by decide)
      have hskc : skip ⟨ws ++ (printT (Term.Lam nm k) ++ l), off⟩ =
          ⟨'λ' :: (nm.data ++ (' ' :: (printT k ++ l))), off + ws.length⟩ := by
        rw [hsk, hsplit]
      rw [parse_term, termAlts]
      rw [grammar_step_none (parse_let_reject hskc (by decide))]
      rw [grammar_step_none (parse_dup_reject hskc (by decide))]
      rw [grammar_step_some (parse_lam_print hsk hw.1 hpk hb)]
    | Let nm e k =>
      rw [wfT, Bool.and_eq_true, Bool.and_eq_true] at hw
      obtain ⟨⟨hn, hwe⟩, hwk⟩ := hw
      have hte : tsize e ≤ N := by rw [tsize] at ht; have := tsize_pos k; omega
      have htk : tsize k ≤ N := by rw [tsize] at ht; have := tsize_pos e; omega
      have hmax : Nat.max (need e) (need k) ≤ F2 := by rw [need] at hF; omega
      have hpe := ih e hte hwe F2 (le_trans (Nat.le_max_left _ _) hmax)
      have hpk := ih k htk hwk F2 (le_trans (Nat.le_max_right _ _) hmax)
      have hsplit : printT (Term.Let nm e k) ++ l =
          'l' :: ('e' :: ('t' :: (' ' :: (nm.data ++ (' ' :: ('=' :: (' ' ::
            (printT e ++ (';' :: (' ' :: (printT k ++ l))))))))))) := by
        rw [printT]
        simp only [List.cons_append, List.append_assoc]
      have hsk : skip ⟨ws ++ (printT (Term.Let nm e k) ++ l), off⟩ =
          ⟨printT (Term.Let nm e k) ++ l, off + ws.length⟩ := by
        rw [hsplit]
        exact skip_spaces_cons _ off hws (by decide)
      rw [parse_term, termAlts]
      rw [grammar_step_some (parse_let_print hsk hn hpe hpk hb)]
    | Dup na nb e k =>
      rw [wfT, Bool.and_eq_true, Bool.and_eq_true, Bool.and_eq_true] at hw
      obtain ⟨⟨⟨hna, hnb⟩, hwe⟩, hwk⟩ := hw
      have hte : tsize e ≤ N := by rw [tsize] at ht; have := tsize_pos k; omega
      have htk : tsize k ≤ N := by rw [tsize] at ht; have := tsize_pos e; omega
      have hmax : Nat.max (need e) (need k) ≤ F2 := by rw [need] at hF; omega
      have hpe := ih e hte hwe F2 (le_trans (Nat.le_max_left _ _) hmax)
      have hpk := ih k htk hwk F2 (le_trans (Nat.le_max_right _ _) hmax)
      have hsplit : printT (Term.Dup na nb e k) ++ l =
          'd' :: ('u' :: ('p' :: (' ' :: (na.data ++ (' ' :: (nb.data ++ (' ' ::
            ('=' :: (' ' :: (printT e ++ (';' :: (' ' ::
              (printT k ++ l))))))))))))) := by
        rw [printT]
        simp only [List.cons_append, List.append_assoc]
      have hsk : skip ⟨ws ++ (printT (Term.Dup na nb e k) ++ l), off⟩ =
          ⟨printT (Term.Dup na nb e k) ++ l, off + ws.length⟩ := by
        rw [hsplit]
        exact skip_spaces_cons _ off hws (by decide)
      have hskc : skip ⟨ws ++ (printT (Term.Dup na nb e k) ++ l), off⟩ =
          ⟨'d' :: ('u' :: ('p' :: (' ' :: (na.data ++ (' ' :: (nb.data ++ (' ' ::
            ('=' :: (' ' :: (printT e ++ (';' :: (' ' ::
              (printT k ++ l))))))))))))), off + ws.length⟩ := by
        rw [hsk, hsplit]
      rw [parse_term, termAlts]
      rw [grammar_step_none (parse_let_reject hskc (by decide))]
      rw [grammar_step_some (parse_dup_print hsk hna hnb hpe hpk hb)]
    | Ctr nm args =>
      rw [wfT, Bool.and_eq_true] at hw
      have hlsz : lsize args ≤ N := by rw [tsize] at ht; omega
      have hndL : needL args ≤ F2 := by rw [need] at hF; omega
      have hpp : ∀ e ∈ args, ParsesPrint (parse_term F2) e := by
        intro e he
        exact ih e (le_trans (mem_lsize args e he) hlsz) (wfL_mem args e hw.2 he) F2
          (le_trans (mem_needL args e he) hndL)
      have hsh : ∀ e ∈ args, ∃ c2 cs2, printT e = c2 :: cs2 ∧ goodHeadB c2 = true := by
        intro e he
        exact printT_shape (wfL_mem args e hw.2 he)
      have hsplit : printT (Term.Ctr nm args) ++ l =
          '(' :: (nm.data ++ (printArgs args ++ (')' :: l))) := by
        rw [printT_ctr_plain hw.1]
        simp only [List.cons_append, List.append_assoc, List.nil_append]
      have hsk : skip ⟨ws ++ (printT (Term.Ctr nm args) ++ l), off⟩ =
          ⟨printT (Term.Ctr nm args) ++ l, off + ws.length⟩ := by
        rw [hsplit]
        exact skip_spaces_cons _ off hws (by decide)
      have hskc : skip ⟨ws ++ (printT (Term.Ctr nm args) ++ l), off⟩ =
          ⟨'(' :: (nm.data ++ (printArgs args ++ (')' :: l))), off + ws.length⟩ := by
        rw [hsk, hsplit]
      rw [parse_term, termAlts]
      rw [grammar_step_none (parse_let_reject hskc (by decide))]
      rw [grammar_step_none (parse_dup_reject hskc (by decide))]
      rw [grammar_step_none (parse_lam_reject hskc (by decide) (by decide))]
      rw [grammar_step_some (parse_ctr_print hsk hw.1 hpp hsh hb)]
    | Op2 o a b =>
      rw [wfT, Bool.and_eq_true] at hw
      obtain ⟨d, ds, hds, hop, hupd, hspd⟩ := operStr_shape o
      have hta : tsize a ≤ N := by rw [tsize] at ht; have := tsize_pos b; omega
      have htb : tsize b ≤ N := by rw [tsize] at ht; have := tsize_pos a; omega
      have hmax : Nat.max (need a) (need b) ≤ F2 := by rw [need] at hF; omega
      have hpa := ih a hta hw.1 F2 (le_trans (Nat.le_max_left _ _) hmax)
      have hpb := ih b htb hw.2 F2 (le_trans (Nat.le_max_right _ _) hmax)
      have hsplit : printT (Term.Op2 o a b) ++ l =
          '(' :: (operStr o ++ (' ' :: (printT a ++ (' ' ::
            (printT b ++ (')' :: l)))))) := by
        rw [printT]
        simp only [List.cons_append, List.append_assoc, List.nil_append]
      have hsplit2 : printT (Term.Op2 o a b) ++ l =
          '(' :: (d :: (ds ++ (' ' :: (printT a ++ (' ' ::
            (printT b ++ (')' :: l))))))) := by
        rw [hsplit, hds]
        simp only [List.cons_append]
      have hsk : skip ⟨ws ++ (printT (Term.Op2 o a b) ++ l), off⟩ =
          ⟨printT (Term.Op2 o a b) ++ l, off + ws.length⟩ := by
        rw [hsplit]
        exact skip_spaces_cons _ off hws (by decide)
      have hskc2 : skip ⟨ws ++ (printT (Term.Op2 o a b) ++ l), off⟩ =
          ⟨'(' :: (d :: (ds ++ (' ' :: (printT a ++ (' ' ::
            (printT b ++ (')' :: l))))))), off + ws.length⟩ := by
        rw [hsk, hsplit2]
      rw [parse_term, termAlts]
      rw [grammar_step_none (parse_let_reject hskc2 (by decide))]
      rw [grammar_step_none (parse_dup_reject hskc2 (by decide))]
      rw [grammar_step_none (parse_lam_reject hskc2 (by decide) (by decide))]
      rw [grammar_step_none (parse_ctr_reject_paren hskc2 hspd hupd)]
      rw [grammar_step_some (parse_op2_print hsk hpa hpb hb)]
    | App f a =>
      rw [wfT, Bool.and_eq_true] at hw
      have htf : tsize f ≤ N := by rw [tsize] at ht; have := tsize_pos a; omega
      have hta : tsize a ≤ N := by rw [tsize] at ht; have := tsize_pos f; omega
      have hmax : Nat.max (need f) (need a) ≤ F2 := by rw [need] at hF; omega
      have hwsp : ∀ e ∈ spineL (Term.App f a), wfT e = true := by
        intro e he
        rw [spineL] at he
        rcases List.mem_append.mp he with h | h
        · exact spine_wf N f htf hw.1 e h
        · rw [List.mem_singleton.mp h]
          exact hw.2
      have hpp : ∀ e ∈ spineL (Term.App f a), ParsesPrint (parse_term F2) e := by
        intro e he
        rw [spineL] at he
        rcases List.mem_append.mp he with h | h
        · exact ih e (le_trans (spine_tsize_le N f htf e h) htf)
            (spine_wf N f htf hw.1 e h) F2
            (le_trans (spine_need_le N f htf e h)
              (le_trans (Nat.le_max_left _ _) hmax))
        · rw [List.mem_singleton.mp h]
          exact ih a hta hw.2 F2 (le_trans (Nat.le_max_right _ _) hmax)
      have hsh : ∀ e ∈ spineL (Term.App f a),
          ∃ c2 cs2, printT e = c2 :: cs2 ∧ goodHeadB c2 = true :=
        fun e he => printT_shape (hwsp e he)
      obtain ⟨e0, rest, hspn, hinner⟩ := appInner_join f a
      obtain ⟨c0, cs0, hpr0, hgh0⟩ := hsh e0 (by rw [hspn]; simp)
      have hsplit : printT (Term.App f a) ++ l =
          '(' :: (printT e0 ++ (printArgs rest ++ (')' :: l))) := by
        rw [printT, hinner]
        simp only [List.cons_append, List.append_assoc, List.nil_append]
      have hsplit2 : printT (Term.App f a) ++ l =
          '(' :: (c0 :: (cs0 ++ (printArgs rest ++ (')' :: l)))) := by
        rw [hsplit, hpr0]
        simp only [List.cons_append]
      have hsk : skip ⟨ws ++ (printT (Term.App f a) ++ l), off⟩ =
          ⟨printT (Term.App f a) ++ l, off + ws.length⟩ := by
        rw [hsplit]
        exact skip_spaces_cons _ off hws (by decide)
      have hskc2 : skip ⟨ws ++ (printT (Term.App f a) ++ l), off⟩ =
          ⟨'(' :: (c0 :: (cs0 ++ (printArgs rest ++ (')' :: l)))), off + ws.length⟩ := by
        rw [hsk, hsplit2]
      rw [parse_term, termAlts]
      rw [grammar_step_none (parse_let_reject hskc2 (by decide))]
      rw [grammar_step_none (parse_dup_reject hskc2 (by decide))]
      rw [grammar_step_none (parse_lam_reject hskc2 (by decide) (by decide))]
      rw [grammar_step_none (parse_ctr_reject_paren hskc2 (goodHead_not_space hgh0)
        (goodHead_not_upper hgh0))]
      rw [grammar_step_none (parse_op2_reject_paren hskc2 (goodHead_not_space hgh0)
        (goodHead_not_op hgh0))]
      rw [grammar_step_some (parse_app_print hsk hpp hsh hb)]

-- ==========================================================================
-- Fuel sufficiency: the printed form is at least as long as the recursion
-- capacity its reparse requires
-- ==========================================================================

theorem appInner_len_ge (f a : Term) :
    (printT f).length ≤ (appInner f a).length + 1 ∧
    (printT a).length + 1 ≤ (appInner f a).length := by
  cases f with
  | App g h =>
    rw [show appInner (Term.App g h) a = appInner g h ++ ' ' :: printT a from by
      rw [appInner]]
    rw [show printT (Term.App g h) = '(' :: (appInner g h ++ [')']) from by
      rw [printT]
      simp only [List.cons_append]]
    simp only [List.length_append, List.length_cons, List.length_nil]
    omega
  | Var n =>
    rw [show appInner (Term.Var n) a = printT (Term.Var n) ++ ' ' :: printT a from by
      simp [appInner]]
    simp only [List.length_append, List.length_cons]
    omega
  | Dup x y e k =>
    rw [show appInner (Term.Dup x y e k) a =
        printT (Term.Dup x y e k) ++ ' ' :: printT a from by simp [appInner]]
    simp only [List.length_append, List.length_cons]
    omega
  | Let x e k =>
    rw [show appInner (Term.Let x e k) a =
        printT (Term.Let x e k) ++ ' ' :: printT a from by simp [appInner]]
    simp only [List.length_append, List.length_cons]
    omega
  | Lam x k =>
    rw [show appInner (Term.Lam x k) a =
        printT (Term.Lam x k) ++ ' ' :: printT a from by simp [appInner]]
    simp only [List.length_append, List.length_cons]
    omega
  | Ctr n args =>
    rw [show appInner (Term.Ctr n args) a =
        printT (Term.Ctr n args) ++ ' ' :: printT a from by simp [appInner]]
    simp only [List.length_append, List.length_cons]
    omega
  | Num v =>
    rw [show appInner (Term.Num v) a =
        printT (Term.Num v) ++ ' ' :: printT a from by simp [appInner]]
    simp only [List.length_append, List.length_cons]
    omega
  | Op2 o x y =>
    rw [show appInner (Term.Op2 o x y) a =
        printT (Term.Op2 o x y) ++ ' ' :: printT a from by simp [appInner]]
    simp only [List.length_append, List.length_cons]
    omega

theorem need_le_printT : ∀ (N : Nat) (t : Term), tsize t ≤ N →
    wfT t = true → need t ≤ (printT t).length := by
  intro N
  induction N with
  | zero =>
    intro t ht
    have := tsize_pos t
    exact absurd ht (by omega)
  | succ N ih =>
    intro t ht hw
    cases t with
    | Var n =>
      rw [wfT] at hw
      obtain ⟨c, cs, hd, _, _, _, _⟩ := validVarName_spec hw
      rw [need, printT, hd]
      simp only [List.length_cons]
      omega
    | Num v =>
      obtain ⟨c, cs, hrepr, _, _⟩ := natRepr_shape v
      rw [need, printT, hrepr]
      simp only [List.length_cons]
      omega
    | Lam nm k =>
      rw [wfT, Bool.and_eq_true] at hw
      have h1 : need k ≤ (printT k).length :=
        ih k (by rw [tsize] at ht; omega) hw.2
      rw [need, printT]
      simp only [List.length_cons, List.length_append]
      omega
    | Let nm e k =>
      rw [wfT, Bool.and_eq_true, Bool.and_eq_true] at hw
      have h1 : need e ≤ (printT e).length :=
        ih e (by rw [tsize] at ht; have := tsize_pos k; omega) hw.1.2
      have h2 : need k ≤ (printT k).length :=
        ih k (by rw [tsize] at ht; have := tsize_pos e; omega) hw.2
      have hmx : Nat.max (need e) (need k) ≤
          (printT e).length + (printT k).length :=
        Nat.max_le.mpr ⟨by omega, by omega⟩
      have hlen : (printT (Term.Let nm e k)).length =
          9 + nm.data.length + (printT e).length + (printT k).length := by
        rw [printT]
        simp only [List.length_cons, List.length_append]
        omega
      rw [need, hlen]
      exact le_trans (Nat.add_le_add_left hmx 1) (by omega)
    | Dup na nb e k =>
      rw [wfT, Bool.and_eq_true, Bool.and_eq_true, Bool.and_eq_true] at hw
      have h1 : need e ≤ (printT e).length :=
        ih e (by rw [tsize] at ht; have := tsize_pos k; omega) hw.1.2
      have h2 : need k ≤ (printT k).length :=
        ih k (by rw [tsize] at ht; have := tsize_pos e; omega) hw.2
      have hmx : Nat.max (need e) (need k) ≤
          (printT e).length + (printT k).length :=
        Nat.max_le.mpr ⟨by omega, by omega⟩
      have hlen : (printT (Term.Dup na nb e k)).length =
          10 + na.data.length + nb.data.length +
            (printT e).length + (printT k).length := by
        rw [printT]
        simp only [List.length_cons, List.length_append]
        omega
      rw [need, hlen]
      exact le_trans (Nat.add_le_add_left hmx 1) (by omega)
    | Op2 o a b =>
      rw [wfT, Bool.and_eq_true] at hw
      have h1 : need a ≤ (printT a).length :=
        ih a (by rw [tsize] at ht; have := tsize_pos b; omega) hw.1
      have h2 : need b ≤ (printT b).length :=
        ih b (by rw [tsize] at ht; have := tsize_pos a; omega) hw.2
      have hmx : Nat.max (need a) (need b) ≤
          (printT a).length + (printT b).length :=
        Nat.max_le.mpr ⟨by omega, by omega⟩
      have hlen : (printT (Term.Op2 o a b)).length =
          (operStr o).length + (printT a).length + (printT b).length + 4 := by
        rw [printT]
        simp only [List.length_cons, List.length_append, List.length_nil]
        omega
      rw [need, hlen]
      exact le_trans (Nat.add_le_add_left hmx 1) (by omega)
    | Ctr nm args =>
      rw [wfT, Bool.and_eq_true] at hw
      have hlsz : lsize args ≤ N := by rw [tsize] at ht; omega
      have hlist : ∀ ts : List Term, lsize ts ≤ N → wfL ts = true →
          needL ts ≤ (printArgs ts).length := by
        intro ts
        induction ts with
        | nil =>
          intro _ _
          rw [needL]
          omega
        | cons u us ihl =>
          intro hsz hwl
          rw [wfL, Bool.and_eq_true] at hwl
          have h1 : need u ≤ (printT u).length :=
            ih u (by rw [lsize] at hsz; have := tsize_pos u; omega) hwl.1
          have h2 : needL us ≤ (printArgs us).length :=
            ihl (by rw [lsize] at hsz; have := tsize_pos u; omega) hwl.2
          rw [needL, printArgs_length_cons]
          exact Nat.max_le.mpr ⟨by omega, by omega⟩
      have hargs : needL args ≤ (printArgs args).length := hlist args hlsz hw.2
      have hlen : (printT (Term.Ctr nm args)).length =
          nm.data.length + (printArgs args).length + 2 := by
        rw [printT_ctr_plain hw.1]
        simp only [List.length_cons, List.length_append, List.length_nil]
        omega
      rw [need, hlen]
      omega
    | App f a =>
      rw [wfT, Bool.and_eq_true] at hw
      have h1 : need f ≤ (printT f).length :=
        ih f (by rw [tsize] at ht; have := tsize_pos a; omega) hw.1
      have h2 : need a ≤ (printT a).length :=
        ih a (by rw [tsize] at ht; have := tsize_pos f; omega) hw.2
      obtain ⟨hg1, hg2⟩ := appInner_len_ge f a
      have hmx : Nat.max (need f) (need a) ≤ (appInner f a).length + 1 :=
        Nat.max_le.mpr ⟨by omega, by omega⟩
      have hlen : (printT (Term.App f a)).length = (appInner f a).length + 2 := by
        rw [printT]
        simp only [List.length_cons, List.length_append, List.length_nil]
      rw [need, hlen]
      exact le_trans (Nat.add_le_add_left hmx 1) (by omega)

/-- Top level of the round-trip development: a well-formed term is recovered
by the reader from its printed form, the reader's recursion capacity being
sufficient by the length bound. -/
theorem read_term_print (t : Term) (hw : wfT t = true) :
    read_term (printTerm t) = .ok t := by
  have hneed : need t ≤ (printTerm t).length + 2 := by
    have h1 := need_le_printT (tsize t) t (Nat.le_refl _) hw
    have h2 : (printTerm t).length = (printT t).length := rfl
    omega
  have h := parse_term_print_main (tsize t) t (Nat.le_refl _) hw
    ((printTerm t).length + 2) hneed [] [] 0 rfl rfl
  rw [List.nil_append, List.append_nil] at h
  rw [read_term, pread]
  rw [show (printTerm t).data = printT t from rfl]
  rw [h]

-- ==========================================================================
-- Unterminated string literals: consumed to end of input, folded to a chain
-- ==========================================================================

theorem strLoop_all : ∀ (cs : List Char) (off : Nat) (delim : Char),
    (∀ c ∈ cs, c ≠ delim ∧ c ≠ Char.ofNat 0) →
    strLoop cs off delim = (cs, ⟨[], off + cs.length⟩) := by
  intro cs
  induction cs with
  | nil =>
    intro off delim _
    rw [strLoop]
    simp
  | cons c cs ih =>
    intro off delim h
    have hc := h c (by simp)
    rw [strLoop]
    rw [if_neg (by simp [hc.1, hc.2])]
    rw [ih (off + 1) delim (fun x hx => h x (by simp [hx]))]
    simp only [List.length_cons]
    rw [show off + 1 + cs.length = off + (cs.length + 1) from by omega]

theorem parse_str_run (cs : List Char) (off : Nat)
    (h : ∀ c ∈ cs, c ≠ '"' ∧ c ≠ Char.ofNat 0) :
    parse_str_sugar ⟨'"' :: cs, off⟩ =
      .ok (⟨[], off + 1 + cs.length⟩,
        some (cs.foldr (fun c t => Term.Ctr "StrCons" [Term.Num c.toNat, t])
          (Term.Ctr "StrNil" []))) := by
  have hsk : skip (⟨'"' :: cs, off⟩ : PState) = ⟨'"' :: cs, off⟩ :=
    skip_cons cs off (by decide)
  have hsk2 : skip (skip (⟨'"' :: cs, off⟩ : PState)) = ⟨'"' :: cs, off⟩ := by
    rw [skip_skip, hsk]
  rw [parse_str_sugar]
  refine pguard_some _ _ _ ⟨cs, off + 1⟩ ⟨[], off + 1 + cs.length⟩ _ ?_ ?_
  · rw [get_char_at hsk2]
    rfl
  · rw [hsk]
    show (match strLoop cs (off + 1) '"' with
      | (chars, s) => Except.ok (s, List.foldr
          (fun (c : Char) (t : Term) => Term.Ctr "StrCons" [Term.Num c.toNat, t])
          (Term.Ctr "StrNil" []) chars)) = _
    rw [strLoop_all cs (off + 1) '"' h]

theorem read_term_unterminated (s : String)
    (h : ∀ c ∈ s.data, c ≠ '"' ∧ c ≠ Char.ofNat 0) :
    read_term ⟨'"' :: s.data⟩ =
      .ok (s.data.foldr (fun c t => Term.Ctr "StrCons" [Term.Num c.toNat, t])
        (Term.Ctr "StrNil" [])) := by
  have hskc : skip (⟨'"' :: s.data, 0⟩ : PState) = ⟨'"' :: s.data, 0⟩ :=
    skip_cons s.data 0 (by decide)
  rw [read_term, pread]
  rw [show ((⟨'"' :: s.data⟩ : String)).data = '"' :: s.data from rfl]
  rw [show ((⟨'"' :: s.data⟩ : String)).length + 2 =
      (((⟨'"' :: s.data⟩ : String)).length + 1) + 1 from rfl]
  rw [parse_term, termAlts]
  rw [grammar_step_none (parse_let_reject hskc (by decide))]
  rw [grammar_step_none (parse_dup_reject hskc (by decide))]
  rw [grammar_step_none (parse_lam_reject hskc (by decide) (by decide))]
  rw [grammar_step_none (parse_ctr_reject_noparen hskc (by decide) (by decide))]
  rw [grammar_step_none (parse_op2_reject_noparen hskc (by decide))]
  rw [grammar_step_none (parse_app_reject hskc (by decide))]
  rw [grammar_step_none (parse_u60_reject hskc (by decide))]
  rw [grammar_step_none (parse_chr_reject hskc (by decide))]
  rw [grammar_step_some (parse_str_run s.data 0 h)]

-- ==========================================================================
-- Claims
-- ==========================================================================

/-- C1 (counterexample to the claim as stated): the claim quantifies over
every term of non-sugar shape, but the reader does not recover every such
term from its printed form — `Var ""` is of non-sugar shape, its printed
form is the empty string, and reading that back yields an error rather
than the term. -/
theorem C1_roundtrip_counterexample :
    nonSugarT (Term.Var "") = true ∧
    read_term (printTerm (Term.Var "")) ≠ .ok (Term.Var "") := by
  refine ⟨by rw [nonSugarT], ?_⟩
  have h1 : printTerm (Term.Var "") = "" := by
    show (⟨printT (Term.Var "")⟩ : String) = ""
    rw [printT]
  rw [h1]
  rw [show read_term "" = .error (.expected "Term" 0) from rfl]
  intro hcontra
  exact Except.noConfusion hcontra

/-- C1 (amended): for every well-formed term — non-sugar shapes whose
variable, binder and constructor names are valid identifiers of the right
class and whose numerals are below `2^64` — parsing the printed form gives
back the same term: `read_term (print t) = .ok t`. -/
theorem C1_roundtrip (t : Term) (hw : wfT t = true) :
    read_term (printTerm t) = .ok t :=
  read_term_print t hw

theorem C1_roundtrip_witness :
    wfT (Term.App (Term.Lam "x" (Term.Var "x")) (Term.Num 7)) = true ∧
    read_term (printTerm (Term.App (Term.Lam "x" (Term.Var "x")) (Term.Num 7))) =
      .ok (Term.App (Term.Lam "x" (Term.Var "x")) (Term.Num 7)) := by
  have hw : wfT (Term.App (Term.Lam "x" (Term.Var "x")) (Term.Num 7)) = true := by
    simp [wfT, validName, validVarName, isLowerChar, isNameChar, isUpperChar,
      isDigitChar]
  exact ⟨hw, C1_roundtrip _ hw⟩

/-- C2 (counterexample to the claim as stated): a two-argument `StrCons`
whose first argument is not a numeral deviates from the sugar shape, yet
the printer does NOT fall through to plain constructor printing — the
source's recogniser returns success before checking the head, so the term
prints as the empty string literal. -/
theorem C2_sugar_fallback_counterexample :
    printTerm (Term.Ctr "StrCons" [Term.Var "x", Term.Var "y"]) = "\"\"" ∧
    printTerm (Term.Ctr "StrCons" [Term.Var "x", Term.Var "y"]) ≠
      ⟨'(' :: ("StrCons".data ++
        (printArgs [Term.Var "x", Term.Var "y"] ++ [')']))⟩ := by
  have h1 : printTerm (Term.Ctr "StrCons" [Term.Var "x", Term.Var "y"]) = "\"\"" := by
    show (⟨printT (Term.Ctr "StrCons" [Term.Var "x", Term.Var "y"])⟩ : String) = _
    rw [printT]
    rw [show strSugarGo (Term.Ctr "StrCons" [Term.Var "x", Term.Var "y"]) =
        some [] from rfl]
    rfl
  refine ⟨h1, ?_⟩
  rw [h1]
  intro hcontra
  have h2 := congrArg String.data hcontra
  rw [show ("\"\"" : String).data = ['"', '"'] from rfl] at h2
  simp at h2

/-- C2 (amended): a sugar-named constructor of the wrong arity, or a `Cons`
chain ending in something other than `Nil`, indeed falls through to plain
constructor printing, and a recognition failure below a `Cons` aborts the
whole attempt; but a two-argument `StrCons` whose first argument is not a
numeral is re-sugared as the empty string literal rather than falling
through. -/
theorem C2_sugar_fallback :
    (∀ a b c : Term, printTerm (Term.Ctr "Cons" [a, b, c]) =
      ⟨'(' :: ("Cons".data ++ (printArgs [a, b, c] ++ [')']))⟩) ∧
    (∀ (a : Term) (x : String), printTerm (Term.Ctr "Cons" [a, Term.Var x]) =
      ⟨'(' :: ("Cons".data ++ (printArgs [a, Term.Var x] ++ [')']))⟩) ∧
    (∀ (x : String) (y : Term),
      printTerm (Term.Ctr "StrCons" [Term.Var x, y]) = "\"\"") := by
  refine ⟨?_, ?_, ?_⟩
  · intro a b c
    show (⟨printT (Term.Ctr "Cons" [a, b, c])⟩ : String) = _
    refine congrArg String.mk ?_
    rw [printT]
    rw [show strSugarGo (Term.Ctr "Cons" [a, b, c]) = none from by
      simp [strSugarGo]]
    rw [show lstSugarGo (Term.Ctr "Cons" [a, b, c]) true = none from by
      simp [lstSugarGo]]
    simp
  · intro a x
    show (⟨printT (Term.Ctr "Cons" [a, Term.Var x])⟩ : String) = _
    refine congrArg String.mk ?_
    rw [printT]
    rw [show strSugarGo (Term.Ctr "Cons" [a, Term.Var x]) = none from by
      simp [strSugarGo]]
    rw [show lstSugarGo (Term.Ctr "Cons" [a, Term.Var x]) true = none from by
      rw [lstSugarGo]
      simp [lstSugarGo]]
    simp
  · intro x y
    show (⟨printT (Term.Ctr "StrCons" [Term.Var x, y])⟩ : String) = _
    rw [printT]
    rw [show strSugarGo (Term.Ctr "StrCons" [Term.Var x, y]) = some [] from by
      rw [strSugarGo]
      simp
      exact fun numb h => Term.noConfusion h]
    rfl

/-- C3: the ordered choice of the term grammar tries the binary-operator
form before the generic application form on a leading parenthesis, so
`(+ 1 2)` reads as an `Op2` node with the `Add` operator, not as a
constructor or application spine. -/
theorem C3_op2_priority :
    read_term "(+ 1 2)" = .ok (Term.Op2 .Add (Term.Num 1) (Term.Num 2)) := rfl

/-- C4: for each of the 16 operator symbols and any canonical (well-formed)
operand terms, the printed form `(s a b)` with single-space separators
reads back as the `Op2` node with that very operator — the two-character
symbols being recognised as themselves — and printing that node produces
exactly this form. -/
theorem C4_oper_roundtrip (o : Oper) (a b : Term)
    (ha : wfT a = true) (hb : wfT b = true) :
    printTerm (Term.Op2 o a b) =
      ⟨'(' :: (operStr o ++ (' ' :: (printT a ++ (' ' :: (printT b ++ [')'])))))⟩ ∧
    read_term (printTerm (Term.Op2 o a b)) = .ok (Term.Op2 o a b) := by
  constructor
  · show (⟨printT (Term.Op2 o a b)⟩ : String) = _
    refine congrArg String.mk ?_
    rw [printT]
    simp only [List.cons_append, List.append_assoc, List.nil_append]
  · exact read_term_print (Term.Op2 o a b) (by rw [wfT, ha, hb]; rfl)

theorem C4_oper_roundtrip_witness :
    wfT (Term.Num 1) = true ∧ wfT (Term.Num 2) = true ∧
    (printTerm (Term.Op2 .Shl (Term.Num 1) (Term.Num 2)) =
      ⟨'(' :: (operStr .Shl ++ (' ' :: (printT (Term.Num 1) ++
        (' ' :: (printT (Term.Num 2) ++ [')'])))))⟩ ∧
    read_term (printTerm (Term.Op2 .Shl (Term.Num 1) (Term.Num 2))) =
      .ok (Term.Op2 .Shl (Term.Num 1) (Term.Num 2))) := by
  have h1 : wfT (Term.Num 1) = true := by rw [wfT]; decide
  have h2 : wfT (Term.Num 2) = true := by rw [wfT]; decide
  exact ⟨h1, h2, C4_oper_roundtrip .Shl (Term.Num 1) (Term.Num 2) h1 h2⟩

/-- C5: the empty parenthesised sequence parses as the literal zero — the
application alternative accepts it with an empty spine, and the source
folds an empty spine into `Num 0` rather than raising a syntax error. -/
theorem C5_empty_app :
    read_term "()" = .ok (Term.Num 0) := rfl

/-- C6: the totality the spec promises fails in the code — `parse_u60`
converts the full identifier run with `parse::<u64>().unwrap()`, so a
numeral run that is not a valid `u64` (a trailing letter, or a value of
`2^64` and beyond) panics instead of returning an error value; the
embedding records the panic as the `panicked` outcome. -/
theorem C6_u60_panic :
    read_term "1a" = .error (.panicked "u64 parse") ∧
    read_term "18446744073709551616" = .error (.panicked "u64 parse") :=
  ⟨rfl, rfl⟩

/-- C7: a string literal whose closing delimiter is missing is consumed up
to end of input and still yields the right-folded `StrCons`/`StrNil`
chain of its characters — the collection loop stops at end of input
instead of looping forever. -/
theorem C7_unterminated_total (s : String)
    (h : ∀ c ∈ s.data, c ≠ '"' ∧ c ≠ Char.ofNat 0) :
    read_term ⟨'"' :: s.data⟩ =
      .ok (s.data.foldr (fun c t => Term.Ctr "StrCons" [Term.Num c.toNat, t])
        (Term.Ctr "StrNil" [])) :=
  read_term_unterminated s h

theorem C7_unterminated_total_witness :
    (∀ c ∈ ("ab" : String).data, c ≠ '"' ∧ c ≠ Char.ofNat 0) ∧
    read_term ⟨'"' :: ("ab" : String).data⟩ =
      .ok (("ab" : String).data.foldr
        (fun c t => Term.Ctr "StrCons" [Term.Num c.toNat, t])
        (Term.Ctr "StrNil" [])) := by
  have h : ∀ c ∈ ("ab" : String).data, c ≠ '"' ∧ c ≠ Char.ofNat 0 := by decide
  exact ⟨h, C7_unterminated_total "ab" h⟩

/-- C8 (counterexample to the claim as stated): on `"f = 1\ngarbage"` the
file reader does not fail with "expected a definition" at the offset of
`garbage` — the rule parser's guard (the empty literal) always accepts, so
the failure comes from inside the rule body: "expected =" at the end of
the input (offset 13), not "expected definition" at offset 6. -/
theorem C8_file_err_counterexample :
    read_file "f = 1\ngarbage" = .error (.expected "=" 13) ∧
    (Except.error (.expected "=" 13) : Except PFail File) ≠
      .error (.expected "definition" 6) := by
  refine ⟨rfl, ?_⟩
  intro hcontra
  injection hcontra with h2
  exact absurd h2 (by decide)

/-- C8 (amended): the empty file reads as the empty rule sequence, and
`"f = 1\ngarbage"` fails with "expected =" positioned at the end of the
input (offset 13), the unparseable trailer having been consumed as the
left-hand side of a new rule whose `=` never comes. -/
theorem C8_file_reader :
    read_file "" = .ok ⟨[]⟩ ∧
    read_file "f = 1\ngarbage" = .error (.expected "=" 13) :=
  ⟨rfl, rfl⟩

/-- C9: when the printer attempts string sugar on a `StrCons` chain headed
by a numeral, the numeral is truncated to its low 32 bits first, and
whenever that 32-bit value is a valid Unicode scalar value the sugar
succeeds — so any numeral at or above `2^32` whose low bits form a scalar
value prints as the one-character string literal of `n mod 2^32`, not as a
plain constructor. -/
theorem C9_strcons_truncation (n : Nat)
    (hs : isScalar (n % 4294967296) = true) :
    printTerm (Term.Ctr "StrCons" [Term.Num n, Term.Ctr "StrNil" []]) =
      ⟨['"', Char.ofNat (n % 4294967296), '"']⟩ := by
  show (⟨printT (Term.Ctr "StrCons" [Term.Num n, Term.Ctr "StrNil" []])⟩ :
    String) = _
  refine congrArg String.mk ?_
  rw [printT]
  rw [show strSugarGo (Term.Ctr "StrCons" [Term.Num n, Term.Ctr "StrNil" []]) =
      some [Char.ofNat (n % 4294967296)] from by
    rw [strSugarGo]
    simp [hs]
    rw [show strSugarGo (Term.Ctr "StrNil" []) = some [] from rfl]]
  rfl

theorem C9_strcons_truncation_witness :
    isScalar (4294967393 % 4294967296) = true ∧
    printTerm (Term.Ctr "StrCons" [Term.Num 4294967393, Term.Ctr "StrNil" []]) =
      ⟨['"', Char.ofNat (4294967393 % 4294967296), '"']⟩ := by
  have h : isScalar (4294967393 % 4294967296) = true := by decide
  exact ⟨h, C9_strcons_truncation 4294967393 h⟩

/-- C10: the lambda parser reads its binder with the lenient reader while
`let` and `dup` use the strict one: `@(1 2)` succeeds as a lambda whose
binder is the empty name, whereas any input in which the `let ` or `dup `
keyword is immediately followed by `=` fails with "expected name" at the
offset right after the keyword. -/
theorem C10_lenient_lam_strict_binders :
    read_term "@(1 2)" =
      .ok (Term.Lam "" (Term.App (Term.Num 1) (Term.Num 2))) ∧
    (∀ rest : List Char,
      read_term ⟨'l' :: 'e' :: 't' :: ' ' :: '=' :: rest⟩ =
        .error (.expected "name" 4)) ∧
    (∀ rest : List Char,
      read_term ⟨'d' :: 'u' :: 'p' :: ' ' :: '=' :: rest⟩ =
        .error (.expected "name" 4)) :=
  ⟨rfl, fun _ => rfl, fun _ => rfl⟩
